import Mathlib

set_option linter.unusedSectionVars false

/-!
Verification of a disk-resident suffix-array text search tool (Python).

The repository has four files: `sort.py` (insertion sort, quicksort with a
pluggable pivot selector and a cutoff to the built-in sort, Hoare partition),
`build_index.py` (word-start position collection, the two-pass external sorter,
the sortedness verifier), `search_index.py` (binary search for the first
matching suffix) and `util.py` (memory-mapped byte/int arrays).

We embed the program shallowly: the text corpus and the index file are
`List Nat` (byte values resp. 32-bit offsets), in-place array mutation becomes
list rewriting, Python `bytes` comparison is the lexicographic order on
`List Nat` (Mathlib's `List.Lex (· < ·)` linear order), and fallible
operations (mmap of an empty file, out-of-range indexing) return `Except`.
`exact_compare` in the source loops forever on positions past the end of the
text whose suffixes are both empty, so its embedding carries explicit fuel
and returns `Option Int`; `none` corresponds to non-termination and is proved
unreachable for positions inside the text.
-/

/-- A byte is modelled as a `Nat` (value 0..255). -/
abbrev Byte := Nat

/-- Python's single-byte `bytes.isalnum()`: true exactly for the ASCII digits
and letters. Multi-byte UTF-8 continuation bytes (≥ 0x80) are not
alphanumeric. -/
def isalnum (b : Byte) : Bool :=
  decide ((48 ≤ b ∧ b ≤ 57) ∨ (65 ≤ b ∧ b ≤ 90) ∨ (97 ≤ b ∧ b ≤ 122))

/-- Python's tuple swap `array[i], array[j] = array[j], array[i]`:
the right-hand side is evaluated first, then `array[i]` and `array[j]` are
assigned in order. -/
def listSwap {α : Type} [Inhabited α] (l : List α) (i j : Nat) : List α :=
  let vi := l.getD i default
  let vj := l.getD j default
  (l.set i vj).set j vi

/-- Python's slice `array[lo:hi]` (for non-negative bounds): it clamps at the
end of the list. -/
def pySlice {α : Type} (l : List α) (lo hi : Nat) : List α :=
  (l.drop lo).take (hi - lo)

namespace ListFacts

variable {α : Type} [Inhabited α]

theorem getD_eq_getElem (l : List α) (i : Nat) (h : i < l.length) :
    l.getD i default = l[i] := by
  simp [List.getD_eq_getElem?_getD, List.getElem?_eq_getElem h]

omit [Inhabited α] in
theorem getElem?_append_lt {l₁ l₂ : List α} {m : Nat} (h : m < l₁.length) :
    (l₁ ++ l₂)[m]? = l₁[m]? := by
  rw [List.getElem?_append, if_pos h]

@[simp] theorem length_listSwap (l : List α) (i j : Nat) :
    (listSwap l i j).length = l.length := by
  simp [listSwap]

theorem getElem?_listSwap (l : List α) (i j m : Nat)
    (hi : i < l.length) (hj : j < l.length) :
    (listSwap l i j)[m]? =
      if m = j then some l[i] else if m = i then some l[j] else l[m]? := by
  simp only [listSwap, List.getElem?_set, List.length_set,
    getD_eq_getElem l i hi, getD_eq_getElem l j hj]
  rcases eq_or_ne m j with rfl | hmj
  · simp [hj]
  · rw [if_neg (Ne.symm hmj), if_neg hmj]
    rcases eq_or_ne m i with rfl | hmi
    · simp [hi]
    · rw [if_neg (Ne.symm hmi), if_neg hmi]

theorem getElem?_listSwap_of_ne (l : List α) (i j m : Nat)
    (hi : i < l.length) (hj : j < l.length) (hmi : m ≠ i) (hmj : m ≠ j) :
    (listSwap l i j)[m]? = l[m]? := by
  rw [getElem?_listSwap l i j m hi hj, if_neg hmj, if_neg hmi]

theorem listSwap_self (l : List α) (i : Nat) : listSwap l i i = l := by
  by_cases hi : i < l.length
  · apply List.ext_getElem?
    intro m
    rw [getElem?_listSwap l i i m hi hi]
    rcases eq_or_ne m i with rfl | hmi
    · simp [List.getElem?_eq_getElem hi]
    · simp [hmi]
  · simp only [listSwap]
    rw [List.set_eq_of_length_le (by simp; omega), List.set_eq_of_length_le (by omega)]

theorem count_listSwap [DecidableEq α] (l : List α) (i j : Nat)
    (hi : i < l.length) (hj : j < l.length) (b : α) :
    (listSwap l i j).count b = l.count b := by
  rcases eq_or_ne i j with rfl | hij
  · rw [listSwap_self]
  · have hj' : j < (l.set i (l[j])).length := by simpa using hj
    simp only [listSwap, getD_eq_getElem l i hi, getD_eq_getElem l j hj]
    rw [List.count_set _ _ _ _ hj', List.count_set _ _ _ _ hi]
    have hji : (l.set i l[j])[j] = l[j] := by
      rw [List.getElem_set]
      simp [hij]
    rw [hji]
    have hcnti : l[i] = b → 1 ≤ l.count b := fun hb => by
      have hm : b ∈ l := hb ▸ List.getElem_mem hi
      exact List.count_pos_iff.mpr hm
    have hcntj : l[j] = b → 1 ≤ l.count b := fun hb => by
      have hm : b ∈ l := hb ▸ List.getElem_mem hj
      exact List.count_pos_iff.mpr hm
    by_cases h1 : l[i] = b <;> by_cases h2 : l[j] = b
    · have hc := hcnti h1
      simp only [h1, h2, beq_self_eq_true, if_true]
      omega
    · have hc := hcnti h1
      simp only [h1, beq_self_eq_true, if_true, beq_iff_eq, h2, if_false]
      omega
    · have hc := hcntj h2
      simp only [h2, beq_self_eq_true, if_true, beq_iff_eq, h1, if_false]
      omega
    · simp only [beq_iff_eq, h1, h2, if_false]
      omega

theorem listSwap_perm [DecidableEq α] (l : List α) (i j : Nat)
    (hi : i < l.length) (hj : j < l.length) :
    (listSwap l i j).Perm l := by
  rw [List.perm_iff_count]
  intro b
  exact count_listSwap l i j hi hj b

/-- Swapping two adjacent positions exchanges the two elements there. -/
theorem listSwap_adjacent (A : List α) (b c : α) (r : List α) :
    listSwap (A ++ b :: c :: r) A.length (A.length + 1) = A ++ c :: b :: r := by
  have hb : A.length < (A ++ b :: c :: r).length := by simp
  have hc : A.length + 1 < (A ++ b :: c :: r).length := by simp
  have h1 : (A ++ b :: c :: r)[A.length] = b := by
    rw [List.getElem_append_right (Nat.le_refl A.length)]
    simp
  have h2 : (A ++ b :: c :: r)[A.length + 1] = c := by
    rw [List.getElem_append_right (by omega)]
    simp
  apply List.ext_getElem?
  intro m
  rw [getElem?_listSwap _ _ _ _ hb hc]
  rcases eq_or_ne m (A.length + 1) with rfl | hm1
  · rw [if_pos rfl, h1, List.getElem?_append_right (by omega)]
    simp
  · rcases eq_or_ne m A.length with rfl | hm0
    · rw [if_neg hm1, if_pos rfl, h2, List.getElem?_append_right (Nat.le_refl _)]
      simp
    · rw [if_neg hm1, if_neg hm0]
      rcases Nat.lt_or_ge m A.length with hlt | hge
      · rw [getElem?_append_lt hlt, getElem?_append_lt hlt]
      · have hge2 : A.length + 2 ≤ m := by omega
        rw [List.getElem?_append_right hge, List.getElem?_append_right hge]
        have hm2 : m - A.length = (m - A.length - 2) + 2 := by omega
        rw [hm2]
        simp

theorem take_listSwap (l : List α) (i j n : Nat)
    (hi : i < l.length) (hj : j < l.length) (hn1 : n ≤ i) (hn2 : n ≤ j) :
    (listSwap l i j).take n = l.take n := by
  apply List.ext_getElem?
  intro m
  simp only [List.getElem?_take]
  by_cases hm : m < n
  · rw [if_pos hm, if_pos hm]
    exact getElem?_listSwap_of_ne l i j m hi hj (by omega) (by omega)
  · rw [if_neg hm, if_neg hm]

theorem drop_listSwap (l : List α) (i j n : Nat)
    (hi : i < l.length) (hj : j < l.length) (hn1 : i < n) (hn2 : j < n) :
    (listSwap l i j).drop n = l.drop n := by
  apply List.ext_getElem?
  intro m
  rw [List.getElem?_drop, List.getElem?_drop]
  exact getElem?_listSwap_of_ne l i j (n + m) hi hj (by omega) (by omega)

end ListFacts

/-! ## sort.py: insertion sort, quicksort, partition, pivot selectors -/

/-- The type of pivot selectors (sort.py `PivotSelector`): they receive the
array, the half-open bounds and the sort key and return an index. -/
abbrev PivotSelector (α K : Type) : Type := List α → Nat → Nat → (α → K) → Nat

section SortPy

variable {α : Type} [Inhabited α] {K : Type} [LinearOrder K]

/-- The inner `while` loop of `insertion_sort` (sort.py): starting at position
`j`, while `key(array[j]) > key(array[j+1])` holds swap the two adjacent
elements and move one step left; the `j >= 0` conjunct of the Python guard
stops the loop after a swap at position 0 (Python also evaluates the
comparison `key(array[-1]) > key(array[0])` there, with no effect).  The
comparison `>` on keys is passed as the Boolean guard `gt`; in the
suffix-array build the keys come from `functools.cmp_to_key`, whose `>` is
"comparator returns a positive number". -/
def insertion_sort_inner (gt : α → α → Bool) (l : List α) : Nat → List α
  | 0 => if gt (l.getD 0 default) (l.getD 1 default) then listSwap l 0 1 else l
  | j+1 =>
    if gt (l.getD (j+1) default) (l.getD (j+2) default) then
      insertion_sort_inner gt (listSwap l (j+1) (j+2)) j
    else l

/-- One iteration of the outer `for` loop of `insertion_sort` (sort.py): run
the inner loop from `j = i - 1`; for `i = 0` the guard fails immediately
(`j = -1` makes the `j >= 0` conjunct false). -/
def insertion_sort_step (gt : α → α → Bool) (acc : List α) (i : Nat) : List α :=
  match i with
  | 0 => acc
  | i'+1 => insertion_sort_inner gt acc i'

/-- `insertion_sort` (sort.py): the outer loop over `range(0, len(array))`. -/
def insertion_sort (gt : α → α → Bool) (l : List α) : List α :=
  (List.range l.length).foldl (insertion_sort_step gt) l

/-- `builtin_timsort` (sort.py): `sorted(array[lo:hi], key=key)` — a stable
sort by `key`, modelled by `List.mergeSort` — written back over
`array[lo:hi]`. -/
def builtin_timsort (key : α → K) (l : List α) (lo hi : Nat) : List α :=
  let sorted_array := (pySlice l lo hi).mergeSort (fun x y => decide (key x ≤ key y))
  l.take lo ++ sorted_array ++ l.drop (lo + sorted_array.length)

/-- `take_first_pivot` (sort.py): always the first index of the subrange. -/
def take_first_pivot : PivotSelector α K := fun _ lo _ _ => lo

/-- `median_of_three` (sort.py), with its chain of three tests.  When none of
the three tests succeeds Python falls off the end and returns `None`, making
the subsequent swap crash; for a total order that branch is unreachable
(`median_of_three_mem` below) and is modelled as `lo`. -/
def median_of_three : PivotSelector α K := fun l lo hi key =>
  let lowkey := key (l.getD lo default)
  let highkey := key (l.getD (hi-1) default)
  let mediankey := key (l.getD ((hi-1+lo)/2) default)
  if lowkey ≥ highkey ∧ lowkey ≤ mediankey ∨ lowkey ≤ highkey ∧ lowkey ≥ mediankey then
    lo
  else if mediankey ≥ highkey ∧ mediankey ≤ lowkey ∨
      mediankey ≤ highkey ∧ mediankey ≥ lowkey then
    (lo+hi-1)/2
  else if highkey ≥ lowkey ∧ highkey ≤ mediankey ∨
      highkey ≤ lowkey ∧ highkey ≥ mediankey then
    hi-1
  else lo

/-- First inner loop of `partition` (sort.py): advance `lo` while
`lo <= hi and key(array[lo]) < key(pivot_value)`. -/
def advance_lo (key : α → K) (l : List α) (pk : K) (hi : Nat) (lo : Nat) : Nat :=
  if lo ≤ hi ∧ key (l.getD lo default) < pk then advance_lo key l pk hi (lo+1)
  else lo
termination_by hi + 1 - lo
decreasing_by omega

/-- Second inner loop of `partition` (sort.py): move `hi` down while
`lo <= hi and key(array[hi]) > key(pivot_value)`.  Inside `partition` this
loop always runs with `lo ≥ 1`, so the guard fails at the latest when
`hi = lo - 1 ≥ 0` and Python's `hi` never becomes -1; the `hi = 0` equation
returns 0 in that unreachable corner. -/
def advance_hi (key : α → K) (l : List α) (pk : K) (lo : Nat) : Nat → Nat
  | 0 => 0
  | h+1 =>
    if lo ≤ h+1 ∧ key (l.getD (h+1) default) > pk then advance_hi key l pk lo h
    else h+1

theorem le_advance_lo (key : α → K) (l : List α) (pk : K) (hi lo : Nat) :
    lo ≤ advance_lo key l pk hi lo := by
  induction lo using advance_lo.induct key l pk hi with
  | case1 lo h ih =>
    rw [advance_lo, if_pos h]
    omega
  | case2 lo h =>
    rw [advance_lo, if_neg h]

theorem advance_hi_le (key : α → K) (l : List α) (pk : K) (lo hi : Nat) :
    advance_hi key l pk lo hi ≤ hi := by
  induction hi with
  | zero => simp [advance_hi]
  | succ h ih =>
    rw [advance_hi]
    by_cases hc : lo ≤ h+1 ∧ key (l.getD (h+1) default) > pk
    · rw [if_pos hc]; omega
    · rw [if_neg hc]

/-- The `while True` loop of `partition` (sort.py): advance both pointers,
stop (returning the array and the final `hi`) when they cross, otherwise swap
the two stuck elements and continue just inside them. -/
def partition_loop (key : α → K) (pk : K) (l : List α) (lo hi : Nat) :
    List α × Nat :=
  if h : advance_lo key l pk hi lo > advance_hi key l pk (advance_lo key l pk hi lo) hi then
    (l, advance_hi key l pk (advance_lo key l pk hi lo) hi)
  else
    partition_loop key pk
      (listSwap l (advance_lo key l pk hi lo)
        (advance_hi key l pk (advance_lo key l pk hi lo) hi))
      (advance_lo key l pk hi lo + 1)
      (advance_hi key l pk (advance_lo key l pk hi lo) hi - 1)
termination_by hi + 1 - lo
decreasing_by
  have h1 := le_advance_lo key l pk hi lo
  have h2 := advance_hi_le key l pk (advance_lo key l pk hi lo) hi
  omega

/-- `partition` (sort.py): select a pivot, swap it to `lo`, read the pivot
value there, run the scan loop on `[lo+1, hi-1]`, finally swap the pivot into
the returned `hi` position and return that position. -/
def partition (key : α → K) (pivotselector : PivotSelector α K)
    (l : List α) (lo hi : Nat) : List α × Nat :=
  let pivot := pivotselector l lo hi key
  let l1 := listSwap l lo pivot
  let pivot_value := l1.getD lo default
  let res := partition_loop key (key pivot_value) l1 (lo+1) (hi-1)
  (listSwap res.1 lo res.2, res.2)

/-- `quicksort_subarray` (sort.py): delegate to the built-in sort when the
subrange size is at most `cutoff` (and non-zero), otherwise partition and
recurse on both sides.  Python's recursion carries no fuel; the fuel argument
only serves Lean's termination, never runs out when it is at least `hi - lo`
and the pivot selector stays in range, and returns the list unchanged on
exhaustion. -/
def quicksort_subarray (key : α → K) (pivotselector : PivotSelector α K)
    (cutoff : Nat) : Nat → List α → Nat → Nat → List α
  | 0, l, _, _ => l
  | fuel+1, l, lo, hi =>
    if hi - lo = 0 then l
    else if cutoff ≥ hi - lo then builtin_timsort key l lo hi
    else
      let res := partition key pivotselector l lo hi
      let l2 := quicksort_subarray key pivotselector cutoff fuel res.1 lo res.2
      quicksort_subarray key pivotselector cutoff fuel l2 (res.2+1) hi

/-- `quicksort` (sort.py): quicksort the whole array (`cutoff` defaults to 0
at the Python call sites that omit it). -/
def quicksort (key : α → K) (pivotselector : PivotSelector α K)
    (l : List α) (cutoff : Nat) : List α :=
  quicksort_subarray key pivotselector cutoff l.length l 0 l.length

end SortPy

section SortPyInstrumented

variable {α : Type} [Inhabited α] {K : Type} [LinearOrder K]

/-- Instrumented shadow of `quicksort_subarray` recording, in call order, the
subranges `(lo, hi)` on which the recursion delegates to `builtin_timsort`
instead of partitioning. -/
def quicksort_delegations (key : α → K) (pivotselector : PivotSelector α K)
    (cutoff : Nat) : Nat → List α → Nat → Nat → List (Nat × Nat)
  | 0, _, _, _ => []
  | fuel+1, l, lo, hi =>
    if hi - lo = 0 then []
    else if cutoff ≥ hi - lo then [(lo, hi)]
    else
      let res := partition key pivotselector l lo hi
      let l2 := quicksort_subarray key pivotselector cutoff fuel res.1 lo res.2
      quicksort_delegations key pivotselector cutoff fuel res.1 lo res.2 ++
        quicksort_delegations key pivotselector cutoff fuel l2 (res.2+1) hi

end SortPyInstrumented

/-! ## util.py: memory-mapped arrays -/

/-- `DiskBytesArray.__init__` and `DiskIntArray.__init__` (util.py) call
`mmap.mmap(file.fileno(), 0)`, which in CPython raises
`ValueError: cannot mmap an empty file` when the underlying file has length
0; otherwise the whole file is mapped. -/
def mmap_open {β : Type} (contents : List β) : Except String (List β) :=
  if contents.length = 0 then Except.error "cannot mmap an empty file"
  else Except.ok contents

/-! ## build_index.py: position collection, the external sorter, the verifier -/

/-- `COMPARE_BUFFER_SIZE` (build_index.py). -/
def COMPARE_BUFFER_SIZE : Nat := 100

/-- `take_prefix` (build_index.py): the bounded sort key
`text[pos:pos+COMPARE_BUFFER_SIZE]`. -/
def take_prefix (text : List Byte) (pos : Nat) : List Byte :=
  pySlice text pos (pos + COMPARE_BUFFER_SIZE)

/-- The chunk loop of `exact_compare` (build_index.py): compare
`text[pos1:pos1+K]` against `text[pos2:pos2+K]`; if they differ return -1 or
1 according to the bytes comparison, otherwise advance both positions by `K`
and repeat.  Python iterates this `while True`; the fuel argument makes the
recursion well-founded, and `none` marks exhaustion — which corresponds to
actual non-termination of the Python loop (it happens exactly when both
remaining suffixes are empty, i.e. both positions point past the end of the
text). -/
def exact_compare_loop (text : List Byte) : Nat → Nat → Nat → Option Int
  | 0, _, _ => none
  | fuel+1, pos1, pos2 =>
    let bytes1 := pySlice text pos1 (pos1 + COMPARE_BUFFER_SIZE)
    let bytes2 := pySlice text pos2 (pos2 + COMPARE_BUFFER_SIZE)
    if bytes1 ≠ bytes2 then (if bytes1 < bytes2 then some (-1) else some 1)
    else exact_compare_loop text fuel (pos1 + COMPARE_BUFFER_SIZE)
      (pos2 + COMPARE_BUFFER_SIZE)

/-- `exact_compare` (build_index.py): the exact suffix comparator; equal
positions compare equal immediately, otherwise the chunk loop runs.  Fuel
`text.length + 1` never runs out for positions at or before the end of the
text (`exact_compare_eq_suffix_compare`). -/
def exact_compare (text : List Byte) (pos1 pos2 : Nat) : Option Int :=
  if pos1 = pos2 then some 0
  else exact_compare_loop text (text.length + 1) pos1 pos2

/-- `functools.cmp_to_key(exact_compare(text))` wraps positions in key
objects whose `<` is "the comparator returned a negative number".  A `none`
comparator outcome (the Python loop hangs) satisfies neither `<` nor `>`. -/
def exact_lt (text : List Byte) (p q : Nat) : Bool :=
  match exact_compare text p q with
  | some r => decide (r < 0)
  | none => false

/-- `>` on `functools.cmp_to_key(exact_compare(text))` objects: "the
comparator returned a positive number". -/
def exact_gt (text : List Byte) (p q : Nat) : Bool :=
  match exact_compare text p q with
  | some r => decide (0 < r)
  | none => false

/-- The scanning loop of `collect_corpus_positions` (build_index.py): walk
the bytes with their positions, appending position `i` exactly when byte `i`
is alphanumeric and the previous byte was not; `prev` holds the
classification of the previous byte. -/
def collect_loop : Nat → Bool → List Byte → List Nat
  | _, _, [] => []
  | i, prev, c :: rest =>
    if isalnum c && !prev then i :: collect_loop (i+1) (isalnum c) rest
    else collect_loop (i+1) (isalnum c) rest

/-- `collect_corpus_positions` (build_index.py) as a pure function of the
mapped text: the sequence of word-start offsets appended to the index
builder.  `previous` starts as `' '`, whose `isalnum()` is false. -/
def collect_corpus_positions (text : List Byte) : List Nat :=
  collect_loop 0 false text

set_option linter.unusedVariables false in
/-- `sort_suffix_array` (build_index.py): the quicksort pass by the bounded
prefix key with the `median_of_three` pivot selector, then the insertion-sort
pass with the exact comparator.  The function receives `cutoff` but does not
forward it to `quicksort`, which therefore runs with its Python default
`cutoff=0`. -/
def sort_suffix_array (text : List Byte) (suffixarray : List Nat)
    (cutoff : Nat) : List Nat :=
  insertion_sort (exact_gt text)
    (quicksort ( take_prefix text) median_of_three suffixarray 0)

/-- `test_sortedness` (build_index.py): scan the index left to right keeping
the previous *text position* in `left` — initialized to 0, not to
`index[0]` — and count the adjacent comparisons that are not strictly
increasing.  Returns the error count `errs`; the Python function calls
`sys.exit` (non-zero outcome) exactly when the count is non-zero. -/
def test_sortedness (text : List Byte) (index : List Nat) : Nat :=
  ((index.drop 1).foldl
    (fun st right =>
      (right, if exact_lt text st.1 right then st.2 else st.2 + 1))
    ((0 : Nat), (0 : Nat))).2

/-- `build_suffix_array` (build_index.py) with the file openings of its three
phases made explicit: each phase memory-maps the text file, the sorting and
verification phases also map the index file written by the collector (its
byte size is 4·length, so it is empty exactly when no word start was found).
Returns the sorted index together with the verifier's error count. -/
def build_suffix_array (text : List Byte) (cutoff : Nat) :
    Except String (List Nat × Nat) := do
  let t1 ← mmap_open text
  let index0 := collect_corpus_positions t1
  let t2 ← mmap_open text
  let index1 ← mmap_open index0
  let sorted := sort_suffix_array t2 index1 cutoff
  let t3 ← mmap_open text
  let index2 ← mmap_open sorted
  Except.ok (sorted, test_sortedness t3 index2)

/-! ## search_index.py: binary search -/

/-- The `while high-low>1` loop of `binary_search_first` (search_index.py):
compare the key with the truncated suffix at `index[mid]` and narrow.  Index
accesses are checked: a Python IndexError becomes `Except.error`. -/
def binary_search_loop (search_key : List Byte) (index : List Nat)
    (text : List Byte) : Nat → Nat → Except String (Nat × Nat) :=
  fun low high =>
    if high - low > 1 then
      match index[(low + high) / 2]? with
      | none => Except.error "IndexError"
      | some ptr =>
        if search_key > pySlice text ptr (ptr + search_key.length) then
          binary_search_loop search_key index text ((low + high) / 2 + 1) high
        else
          binary_search_loop search_key index text low ((low + high) / 2)
    else Except.ok (low, high)
termination_by low high => high - low
decreasing_by all_goals omega

/-- `binary_search_first` (search_index.py): narrow to at most two candidate
positions, then check both for byte-exact prefix equality with the key,
preferring the lower; `-1` means "not found".  For an empty index Python
computes `high = len(index)-1 = -1` (here 0 by Nat truncation); either way
the loop body never runs and the unconditional access `index[low]` with
`low = 0` raises IndexError. -/
def binary_search_first (search_key : List Byte) (index : List Nat)
    (text : List Byte) : Except String Int := do
  let lh ← binary_search_loop search_key index text 0 (index.length - 1)
  match index[lh.1]? with
  | none => Except.error "IndexError"
  | some plow =>
    if search_key = pySlice text plow (plow + search_key.length) then
      Except.ok (lh.1 : Int)
    else
      match index[lh.2]? with
      | none => Except.error "IndexError"
      | some phigh =>
        if search_key = pySlice text phigh (phigh + search_key.length) then
          Except.ok (lh.2 : Int)
        else Except.ok (-1)

/-! ## Lexicographic order facts

Python compares `bytes` lexicographically with a shorter strict prefix
sorting first; on `List Byte` this is exactly `List.Lex (· < ·)`, the `<` of
Mathlib's `LinearOrder (List Byte)` instance. -/

namespace LexFacts

variable {β : Type} [LinearOrder β]

theorem append_left_lt_iff (b s1 s2 : List β) : b ++ s1 < b ++ s2 ↔ s1 < s2 := by
  induction b with
  | nil => exact Iff.rfl
  | cons x xs ih =>
    show List.Lex (· < ·) (x :: (xs ++ s1)) (x :: (xs ++ s2)) ↔ s1 < s2
    rw [List.Lex.cons_iff]
    exact ih

theorem lt_of_prefix_ne {s t : List β} (h : s <+: t) (hne : s ≠ t) : s < t := by
  obtain ⟨r, rfl⟩ := h
  cases r with
  | nil => simp at hne
  | cons a r' =>
    have h0 : ([] : List β) < a :: r' := List.nil_lt_cons a r'
    have h1 := (append_left_lt_iff s [] (a :: r')).mpr h0
    simpa using h1

theorem append_lt_iff_of_ne (b1 b2 r1 r2 : List β) (hne : b1 ≠ b2)
    (h1 : b1.length < b2.length → r1 = [])
    (h2 : b2.length < b1.length → r2 = []) :
    b1 ++ r1 < b2 ++ r2 ↔ b1 < b2 := by
  induction b1 generalizing b2 with
  | nil =>
    cases b2 with
    | nil => exact absurd rfl hne
    | cons y ys =>
      have hr1 : r1 = [] := h1 (by simp)
      subst hr1
      constructor
      · intro _
        exact List.nil_lt_cons y ys
      · intro _
        exact List.nil_lt_cons y (ys ++ r2)
  | cons x xs ih =>
    cases b2 with
    | nil =>
      have hr2 : r2 = [] := h2 (by simp)
      subst hr2
      constructor
      · intro h
        exact absurd h (List.Lex.not_nil_right _ _)
      · intro h
        exact absurd h (List.Lex.not_nil_right _ _)
    | cons y ys =>
      rcases lt_trichotomy x y with hxy | hxy | hxy
      · constructor
        · intro _
          exact List.Lex.rel hxy
        · intro _
          exact List.Lex.rel hxy
      · subst hxy
        show List.Lex (· < ·) (x :: (xs ++ r1)) (x :: (ys ++ r2)) ↔
          List.Lex (· < ·) (x :: xs) (x :: ys)
        rw [List.Lex.cons_iff, List.Lex.cons_iff]
        refine ih ys ?_ ?_ ?_
        · intro hEq
          exact hne (by rw [hEq])
        · intro hl
          exact h1 (by simpa using hl)
        · intro hl
          exact h2 (by simpa using hl)
      · constructor
        · intro h
          cases h with
          | cons h' => exact absurd hxy (lt_irrefl _)
          | rel h' => exact absurd (h'.trans hxy) (lt_irrefl _)
        · intro h
          cases h with
          | cons h' => exact absurd hxy (lt_irrefl _)
          | rel h' => exact absurd (h'.trans hxy) (lt_irrefl _)

theorem lex_take_lt_or_eq {s t : List β} (h : List.Lex (· < ·) s t) (k : Nat) :
    s.take k < t.take k ∨ s.take k = t.take k := by
  induction h generalizing k with
  | nil =>
    rename_i b l
    cases k with
    | zero => right; rfl
    | succ k' => left; exact List.nil_lt_cons _ _
  | cons hlex ih =>
    rename_i a l1 l2
    cases k with
    | zero => right; rfl
    | succ k' =>
      rcases ih k' with hlt | heq
      · left
        show List.Lex (· < ·) (a :: l1.take k') (a :: l2.take k')
        exact (List.Lex.cons_iff).mpr hlt
      · right
        simp [heq]
  | rel hr =>
    cases k with
    | zero => right; rfl
    | succ k' => left; exact List.Lex.rel hr

theorem take_lt_or_eq {s t : List β} (h : s < t) (k : Nat) :
    s.take k < t.take k ∨ s.take k = t.take k :=
  lex_take_lt_or_eq h k

theorem take_le_take {s t : List β} (h : s ≤ t) (k : Nat) :
    s.take k ≤ t.take k := by
  rcases lt_or_eq_of_le h with hlt | rfl
  · rcases take_lt_or_eq hlt k with h1 | h1
    · exact le_of_lt h1
    · exact le_of_eq h1
  · exact le_rfl

end LexFacts

/-! ## Characterization of the exact comparator -/

namespace ExactCompare

open LexFacts

theorem pySlice_chunk (text : List Byte) (p : Nat) :
    pySlice text p (p + COMPARE_BUFFER_SIZE) =
      (text.drop p).take COMPARE_BUFFER_SIZE := by
  simp [pySlice]

theorem drop_chunk_append (text : List Byte) (p : Nat) :
    text.drop p =
      (text.drop p).take COMPARE_BUFFER_SIZE ++ text.drop (p + COMPARE_BUFFER_SIZE) := by
  conv_lhs => rw [← List.take_append_drop COMPARE_BUFFER_SIZE (text.drop p)]
  rw [List.drop_drop]

theorem exact_compare_loop_congr (text : List Byte) :
    ∀ fuel p1 p2 p1' p2', text.drop p1 = text.drop p1' → text.drop p2 = text.drop p2' →
      exact_compare_loop text fuel p1 p2 = exact_compare_loop text fuel p1' p2'
  | 0, _, _, _, _, _, _ => rfl
  | fuel+1, p1, p2, p1', p2', h1, h2 => by
    have e1 : pySlice text p1 (p1 + COMPARE_BUFFER_SIZE) =
        pySlice text p1' (p1' + COMPARE_BUFFER_SIZE) := by
      rw [pySlice_chunk, pySlice_chunk, h1]
    have e2 : pySlice text p2 (p2 + COMPARE_BUFFER_SIZE) =
        pySlice text p2' (p2' + COMPARE_BUFFER_SIZE) := by
      rw [pySlice_chunk, pySlice_chunk, h2]
    have d1 : text.drop (p1 + COMPARE_BUFFER_SIZE) = text.drop (p1' + COMPARE_BUFFER_SIZE) := by
      rw [← List.drop_drop, ← List.drop_drop, h1]
    have d2 : text.drop (p2 + COMPARE_BUFFER_SIZE) = text.drop (p2' + COMPARE_BUFFER_SIZE) := by
      rw [← List.drop_drop, ← List.drop_drop, h2]
    simp only [exact_compare_loop, e1, e2]
    by_cases hb : pySlice text p1' (p1' + COMPARE_BUFFER_SIZE) =
        pySlice text p2' (p2' + COMPARE_BUFFER_SIZE)
    · simp only [hb, ne_eq, not_true_eq_false, if_false]
      exact exact_compare_loop_congr text fuel _ _ _ _ d1 d2
    · simp only [ne_eq, hb, not_false_eq_true, if_true]

theorem exact_compare_loop_none (text : List Byte) :
    ∀ fuel p1 p2, text.length ≤ p1 → text.length ≤ p2 →
      exact_compare_loop text fuel p1 p2 = none
  | 0, _, _, _, _ => rfl
  | fuel+1, p1, p2, h1, h2 => by
    have e1 : pySlice text p1 (p1 + COMPARE_BUFFER_SIZE) = [] := by
      rw [pySlice_chunk, List.drop_eq_nil_of_le h1]
      rfl
    have e2 : pySlice text p2 (p2 + COMPARE_BUFFER_SIZE) = [] := by
      rw [pySlice_chunk, List.drop_eq_nil_of_le h2]
      rfl
    simp only [exact_compare_loop, e1, e2, ne_eq, not_true_eq_false, if_false]
    exact exact_compare_loop_none text fuel _ _ (by omega) (by omega)

theorem exact_compare_loop_spec (text : List Byte) :
    ∀ fuel p1 p2, p1 ≠ p2 → p1 ≤ text.length → p2 ≤ text.length →
      text.length - p1 < fuel * COMPARE_BUFFER_SIZE →
      exact_compare_loop text fuel p1 p2 =
        some (if text.drop p1 < text.drop p2 then -1 else 1) := by
  intro fuel
  induction fuel with
  | zero =>
    intro p1 p2 _ _ _ hf
    have hK : COMPARE_BUFFER_SIZE = 100 := rfl
    rw [hK] at hf
    omega
  | succ fuel ih =>
    intro p1 p2 hne hp1 hp2 hf
    have hK : COMPARE_BUFFER_SIZE = 100 := rfl
    have hlen1 : ((text.drop p1).take COMPARE_BUFFER_SIZE).length =
        min COMPARE_BUFFER_SIZE (text.length - p1) := by
      simp [List.length_take]
    have hlen2 : ((text.drop p2).take COMPARE_BUFFER_SIZE).length =
        min COMPARE_BUFFER_SIZE (text.length - p2) := by
      simp [List.length_take]
    by_cases hb : pySlice text p1 (p1 + COMPARE_BUFFER_SIZE) =
        pySlice text p2 (p2 + COMPARE_BUFFER_SIZE)
    · -- equal chunks: both must be full chunks, recurse
      have hlb : min COMPARE_BUFFER_SIZE (text.length - p1) =
          min COMPARE_BUFFER_SIZE (text.length - p2) := by
        rw [← hlen1, ← hlen2, ← pySlice_chunk, ← pySlice_chunk, hb]
      have hK1 : p1 + COMPARE_BUFFER_SIZE ≤ text.length := by
        rw [hK] at hlb ⊢
        omega
      have hK2 : p2 + COMPARE_BUFFER_SIZE ≤ text.length := by
        rw [hK] at hlb ⊢
        omega
      simp only [exact_compare_loop, hb, ne_eq, not_true_eq_false, if_false]
      rw [ih _ _ (by omega) (by omega) (by omega) (by rw [hK] at hf ⊢; omega)]
      have hiff : text.drop (p1 + COMPARE_BUFFER_SIZE) < text.drop (p2 + COMPARE_BUFFER_SIZE) ↔
          text.drop p1 < text.drop p2 := by
        conv_rhs => rw [drop_chunk_append text p1, drop_chunk_append text p2]
        have hbb : (text.drop p1).take COMPARE_BUFFER_SIZE =
            (text.drop p2).take COMPARE_BUFFER_SIZE := by
          rw [← pySlice_chunk, ← pySlice_chunk, hb]
        rw [hbb]
        exact (append_left_lt_iff _ _ _).symm
      rw [if_congr hiff rfl rfl]
    · -- different chunks: return, and the chunk comparison decides the suffix comparison
      simp only [exact_compare_loop, ne_eq, hb, not_false_eq_true, if_true]
      have hbb : (text.drop p1).take COMPARE_BUFFER_SIZE ≠
          (text.drop p2).take COMPARE_BUFFER_SIZE := by
        rw [← pySlice_chunk, ← pySlice_chunk]
        exact hb
      have hiff : (text.drop p1).take COMPARE_BUFFER_SIZE <
            (text.drop p2).take COMPARE_BUFFER_SIZE ↔
          text.drop p1 < text.drop p2 := by
        conv_rhs => rw [drop_chunk_append text p1, drop_chunk_append text p2]
        refine (append_lt_iff_of_ne _ _ _ _ hbb ?_ ?_).symm
        · intro hl
          rw [hlen1, hlen2, hK] at hl
          exact List.drop_eq_nil_of_le (by omega)
        · intro hl
          rw [hlen1, hlen2, hK] at hl
          exact List.drop_eq_nil_of_le (by omega)
      rw [pySlice_chunk, pySlice_chunk, if_congr hiff rfl rfl]
      split <;> rfl

/-- Complete characterization of `exact_compare`: it hangs (returns `none`)
exactly on distinct positions with equal — necessarily empty — suffixes, and
otherwise decides equality of positions and the lexicographic order of their
suffixes. -/
theorem exact_compare_master (text : List Byte) (p q : Nat) :
    exact_compare text p q =
      if text.drop p = text.drop q ∧ p ≠ q then none
      else some (if p = q then 0 else if text.drop p < text.drop q then -1 else 1) := by
  unfold exact_compare
  rcases eq_or_ne p q with rfl | hne
  · simp
  · rw [if_neg hne]
    by_cases hdrop : text.drop p = text.drop q
    · have hlp : text.length - p = text.length - q := by
        have := congrArg List.length hdrop
        simpa [List.length_drop] using this
      have hp : text.length ≤ p := by omega
      have hq : text.length ≤ q := by omega
      rw [exact_compare_loop_none text _ p q hp hq, if_pos ⟨hdrop, hne⟩]
    · rw [if_neg (fun hc => hdrop hc.1)]
      have hdp : text.drop p = text.drop (min p text.length) := by
        rcases Nat.le_total p text.length with h | h
        · rw [Nat.min_eq_left h]
        · rw [List.drop_eq_nil_of_le h,
            List.drop_eq_nil_of_le (by omega : text.length ≤ min p text.length)]
      have hdq : text.drop q = text.drop (min q text.length) := by
        rcases Nat.le_total q text.length with h | h
        · rw [Nat.min_eq_left h]
        · rw [List.drop_eq_nil_of_le h,
            List.drop_eq_nil_of_le (by omega : text.length ≤ min q text.length)]
      have hne' : min p text.length ≠ min q text.length := by
        intro hEq
        exact hdrop (by rw [hdp, hdq, hEq])
      rw [exact_compare_loop_congr text _ p q _ _ hdp hdq]
      rw [exact_compare_loop_spec text _ _ _ hne' (Nat.min_le_right _ _)
        (Nat.min_le_right _ _) (by have hK : COMPARE_BUFFER_SIZE = 100 := rfl; rw [hK]; omega)]
      rw [hdp, hdq, if_neg hne]

/-- The `<` of the `cmp_to_key` objects is exactly the lexicographic order of
the two suffixes, for arbitrary positions. -/
theorem exact_lt_eq_suffix_lt (text : List Byte) (p q : Nat) :
    exact_lt text p q = decide (text.drop p < text.drop q) := by
  unfold exact_lt
  rw [exact_compare_master]
  by_cases h1 : text.drop p = text.drop q ∧ p ≠ q
  · rw [if_pos h1]
    simp [h1.1]
  · rw [if_neg h1]
    rcases eq_or_ne p q with rfl | hne
    · simp
    · have hdrop : text.drop p ≠ text.drop q := fun hc => h1 ⟨hc, hne⟩
      by_cases hlt : text.drop p < text.drop q
      · simp [hne, hlt]
      · simp [hne, hlt]

/-- The `>` of the `cmp_to_key` objects is exactly the reversed lexicographic
order of the two suffixes, for arbitrary positions. -/
theorem exact_gt_eq_suffix_lt (text : List Byte) (p q : Nat) :
    exact_gt text p q = decide (text.drop q < text.drop p) := by
  unfold exact_gt
  rw [exact_compare_master]
  by_cases h1 : text.drop p = text.drop q ∧ p ≠ q
  · rw [if_pos h1]
    simp [h1.1]
  · rw [if_neg h1]
    rcases eq_or_ne p q with rfl | hne
    · simp
    · have hdrop : text.drop p ≠ text.drop q := fun hc => h1 ⟨hc, hne⟩
      by_cases hlt : text.drop p < text.drop q
      · have hnlt : ¬ text.drop q < text.drop p := lt_asymm hlt
        simp [hne, hlt, hnlt]
      · have hgt : text.drop q < text.drop p :=
          (lt_or_gt_of_ne hdrop).resolve_left hlt
        simp [hne, hlt, hgt]

end ExactCompare

/-! ## Correctness of `insertion_sort` -/

namespace InsertionSortProof

open ListFacts

variable {α : Type} [Inhabited α] [DecidableEq α] {K : Type} [LinearOrder K]

/-- Where one pass of the inner loop puts the new element `x` into the sorted
prefix `A`: after all elements whose key is at most `key x`. -/
def insort (key : α → K) (x : α) (A : List α) : List α :=
  A.takeWhile (fun a => decide (key a ≤ key x)) ++
    x :: A.dropWhile (fun a => decide (key a ≤ key x))

theorem insort_perm (key : α → K) (x : α) (A : List α) :
    (insort key x A).Perm (x :: A) := by
  unfold insort
  calc (A.takeWhile (fun a => decide (key a ≤ key x)) ++
          x :: A.dropWhile (fun a => decide (key a ≤ key x))).Perm
        (x :: (A.takeWhile (fun a => decide (key a ≤ key x)) ++
          A.dropWhile (fun a => decide (key a ≤ key x)))) := List.perm_middle
    _ = x :: A := by rw [List.takeWhile_append_dropWhile]

theorem insort_length (key : α → K) (x : α) (A : List α) :
    (insort key x A).length = A.length + 1 := by
  simpa using (insort_perm key x A).length_eq

theorem pred_false_of_dropWhile_cons {p : α → Bool} {l d : List α} {a : α}
    (h : l.dropWhile p = a :: d) : p a = false := by
  induction l with
  | nil => simp at h
  | cons b l' ih =>
    rw [List.dropWhile_cons] at h
    by_cases hb : p b
    · rw [if_pos hb] at h
      exact ih h
    · rw [if_neg hb] at h
      cases h
      simpa using hb

theorem insort_sorted (key : α → K) (x : α) (A : List α)
    (hA : A.Pairwise (fun u v => key u ≤ key v)) :
    (insort key x A).Pairwise (fun u v => key u ≤ key v) := by
  unfold insort
  have hsplit : A = A.takeWhile (fun a => decide (key a ≤ key x)) ++
      A.dropWhile (fun a => decide (key a ≤ key x)) :=
    (List.takeWhile_append_dropWhile _ _).symm
  have hApw := hsplit ▸ hA
  rw [List.pairwise_append] at hApw
  obtain ⟨hT, hD, hTD⟩ := hApw
  rw [List.pairwise_append]
  refine ⟨hT, ?_, ?_⟩
  · -- x :: dropWhile is sorted
    rw [List.pairwise_cons]
    refine ⟨?_, hD⟩
    intro d hd
    -- every element of the dropWhile part has key > key x
    rcases hdrop : A.dropWhile (fun a => decide (key a ≤ key x)) with _ | ⟨h0, ds⟩
    · rw [hdrop] at hd
      simp at hd
    · rw [hdrop] at hd
      have hh0 : ¬ key h0 ≤ key x := by
        have := pred_false_of_dropWhile_cons hdrop
        simpa using this
      have hx0 : key x ≤ key h0 := le_of_not_le hh0
      rcases List.mem_cons.mp hd with rfl | htail
      · exact hx0
      · have hpair : key h0 ≤ key d := by
          rw [hdrop] at hD
          rw [List.pairwise_cons] at hD
          exact hD.1 d htail
        exact le_trans hx0 hpair
  · -- cross pairs: takeWhile elements ≤ x and ≤ dropWhile elements
    intro t ht b hb
    have htx : key t ≤ key x := by
      have := List.mem_takeWhile_imp ht
      simpa using this
    rcases List.mem_cons.mp hb with rfl | hbD
    · exact htx
    · exact hTD t ht b hbD

theorem insort_of_all_le (key : α → K) (x : α) (A : List α)
    (h : ∀ b ∈ A, key b ≤ key x) :
    insort key x A = A ++ [x] := by
  unfold insort
  have ht : A.takeWhile (fun a => decide (key a ≤ key x)) = A :=
    List.takeWhile_eq_self_iff.mpr (fun b hb => by simpa using h b hb)
  have hd : A.dropWhile (fun a => decide (key a ≤ key x)) = [] := by
    have hlen0 := congrArg List.length
      (List.takeWhile_append_dropWhile (fun a => decide (key a ≤ key x)) A)
    rw [ht] at hlen0
    simp only [List.length_append] at hlen0
    have hz : (A.dropWhile (fun a => decide (key a ≤ key x))).length = 0 := by omega
    exact List.eq_nil_of_length_eq_zero hz
  rw [ht, hd]

theorem insort_append_gt (key : α → K) (x a : α) (A : List α)
    (h : key x < key a) :
    insort key x (A ++ [a]) = insort key x A ++ [a] := by
  induction A with
  | nil =>
    unfold insort
    have hpa : ¬ key a ≤ key x := not_le_of_lt h
    simp [hpa]
  | cons b A' ih =>
    unfold insort at ih ⊢
    by_cases hb : key b ≤ key x
    · simp only [List.cons_append, List.takeWhile_cons, List.dropWhile_cons, hb,
        decide_eq_true_eq, if_true, ite_true]
      rw [ih]
    · simp only [List.cons_append, List.takeWhile_cons, List.dropWhile_cons, hb,
        decide_eq_true_eq, if_false, ite_false]
      simp [hb]

end InsertionSortProof

namespace InsertionSortProof

theorem getD_append_right' {α : Type} [Inhabited α] (A l : List α) (k : Nat) :
    (A ++ l).getD (A.length + k) default = l.getD k default := by
  rw [List.getD_eq_getElem?_getD, List.getD_eq_getElem?_getD,
    List.getElem?_append_right (Nat.le_add_right _ _)]
  simp

theorem pairwise_take_one {α : Type} {R : α → α → Prop} (l : List α) :
    (l.take 1).Pairwise R := by
  cases l with
  | nil => simp
  | cons a l' => simp

variable {α : Type} [Inhabited α] [DecidableEq α] {K : Type} [LinearOrder K]

theorem pairwise_append_singleton_le (key : α → K) (A : List α) (a : α)
    (h : (A ++ [a]).Pairwise (fun u v => key u ≤ key v)) :
    ∀ c ∈ A ++ [a], key c ≤ key a := by
  intro c hc
  rw [List.pairwise_append] at h
  rcases List.mem_append.mp hc with hcA | hca
  · exact h.2.2 c hcA a (by simp)
  · rw [List.mem_singleton.mp hca]

theorem insertion_sort_inner_spec (key : α → K) :
    ∀ (A : List α) (a x : α) (rest : List α),
      (A ++ [a]).Pairwise (fun u v => key u ≤ key v) →
      insertion_sort_inner (fun u v => decide (key v < key u))
          (A ++ a :: x :: rest) A.length =
        insort key x (A ++ [a]) ++ rest := by
  intro A
  induction A using List.reverseRecOn with
  | nil =>
    intro a x rest hsort
    simp only [List.nil_append, List.length_nil]
    rw [insertion_sort_inner]
    have hg0 : (a :: x :: rest).getD 0 default = a := by simp
    have hg1 : (a :: x :: rest).getD 1 default = x := by simp
    rw [hg0, hg1]
    by_cases hc : key x < key a
    · rw [if_pos (by simpa using hc)]
      have hswap := ListFacts.listSwap_adjacent ([] : List α) a x rest
      simp only [List.nil_append, List.length_nil] at hswap
      rw [hswap]
      have : insort key x [a] = [x, a] := by
        unfold insort
        have hpa : ¬ (key a ≤ key x) := not_le_of_lt hc
        simp [hpa]
      rw [this]
      rfl
    · rw [if_neg (by simpa using hc)]
      have : insort key x [a] = [a, x] := by
        rw [insort_of_all_le key x [a]]
        · rfl
        · intro b hb
          rw [List.mem_singleton.mp hb]
          exact le_of_not_lt hc
      rw [this]
      rfl
  | append_singleton A' b ih =>
    intro a x rest hsort
    have hform : (A' ++ [b]) ++ a :: x :: rest = A' ++ b :: a :: x :: rest := by
      simp
    have hlen : (A' ++ [b]).length = A'.length + 1 := by simp
    rw [hform, hlen]
    rw [insertion_sort_inner]
    have hga : (A' ++ b :: a :: x :: rest).getD (A'.length + 1) default = a := by
      have := getD_append_right' A' (b :: a :: x :: rest) 1
      simpa using this
    have hgx : (A' ++ b :: a :: x :: rest).getD (A'.length + 1 + 1) default = x := by
      have := getD_append_right' A' (b :: a :: x :: rest) 2
      rw [show A'.length + 1 + 1 = A'.length + 2 by omega]
      simpa using this
    rw [hga, hgx]
    by_cases hc : key x < key a
    · rw [if_pos (by simpa using hc)]
      -- the swap exchanges positions |A'|+1 and |A'|+2, i.e. `a` and `x`
      have hswap := ListFacts.listSwap_adjacent (A' ++ [b]) a x rest
      rw [hform] at hswap
      rw [hlen] at hswap
      have hform2 : (A' ++ [b]) ++ x :: a :: rest = A' ++ b :: x :: a :: rest := by
        simp
      rw [hform2] at hswap
      rw [hswap]
      -- recursive call at j = |A'| on A' ++ b :: x :: (a :: rest)
      have hsort' : (A' ++ [b]).Pairwise (fun u v => key u ≤ key v) :=
        hsort.sublist (List.sublist_append_left _ _)
      have hrec := ih b x (a :: rest) hsort'
      rw [show A' ++ b :: x :: a :: rest = A' ++ b :: x :: (a :: rest) from rfl]
      rw [hrec]
      rw [insort_append_gt key x a (A' ++ [b]) hc]
      simp
    · rw [if_neg (by simpa using hc)]
      rw [insort_of_all_le key x (A' ++ [b] ++ [a])]
      · simp
      · intro c hc'
        have h1 : key c ≤ key a := pairwise_append_singleton_le key (A' ++ [b]) a hsort c hc'
        exact le_trans h1 (le_of_not_lt hc)

theorem insertion_sort_invariant (key : α → K) (l : List α) :
    ∀ m, m ≤ l.length →
      ((List.range m).foldl
          (insertion_sort_step (fun u v => decide (key v < key u))) l).Perm l ∧
      (((List.range m).foldl
          (insertion_sort_step (fun u v => decide (key v < key u))) l).take m).Pairwise
        (fun u v => key u ≤ key v) := by
  intro m
  induction m with
  | zero =>
    intro _
    simp
  | succ m ih =>
    intro hm
    obtain ⟨hperm, hsort⟩ := ih (by omega)
    rw [List.range_succ, List.foldl_append, List.foldl_cons, List.foldl_nil]
    rcases hm' : m with _ | m'
    · -- processing index 0 does nothing
      subst hm'
      refine ⟨hperm, ?_⟩
      show (_ : List α).take 1 |>.Pairwise _
      exact pairwise_take_one _
    · -- processing index m'+1 runs the inner loop from j = m'
      subst hm'
      set acc := (List.range (m' + 1)).foldl
        (insertion_sort_step (fun u v => decide (key v < key u))) l with hacc
      have hlenacc : acc.length = l.length := hperm.length_eq
      have hmlt : m' + 1 < acc.length := by omega
      -- decompose acc = B ++ x :: rest with B the sorted prefix of length m'+1
      have hdecomp : acc = acc.take (m' + 1) ++ acc[m' + 1] :: acc.drop (m' + 2) := by
        conv_lhs => rw [← List.take_append_drop (m' + 1) acc]
        rw [List.drop_eq_getElem_cons hmlt]
      have hlenB : (acc.take (m' + 1)).length = m' + 1 := by
        rw [List.length_take]
        omega
      have hBne : acc.take (m' + 1) ≠ [] := by
        intro hnil
        rw [hnil] at hlenB
        simp at hlenB
      rcases List.eq_nil_or_concat (acc.take (m' + 1)) with hnil | ⟨A, a, hAa⟩
      · exact absurd hnil hBne
      rw [List.concat_eq_append] at hAa
      have hlenA : A.length = m' := by
        have := hlenB
        rw [hAa] at this
        simp at this
        omega
      have hsortB : (A ++ [a]).Pairwise (fun u v => key u ≤ key v) := by
        rw [← hAa]
        exact hsort
      -- rewrite the accumulator into the inner-spec shape
      have hshape : acc = A ++ a :: acc[m' + 1] :: acc.drop (m' + 2) := by
        conv_lhs => rw [hdecomp]
        rw [hAa]
        simp
      show ((insertion_sort_step (fun u v => decide (key v < key u)) acc (m' + 1)).Perm l) ∧ _
      have hstep : insertion_sort_step (fun u v => decide (key v < key u)) acc (m' + 1) =
          insertion_sort_inner (fun u v => decide (key v < key u)) acc m' := rfl
      rw [hstep]
      have hinner : insertion_sort_inner (fun u v => decide (key v < key u)) acc m' =
          insort key acc[m' + 1] (A ++ [a]) ++ acc.drop (m' + 2) := by
        have hspec := insertion_sort_inner_spec key A a acc[m' + 1] (acc.drop (m' + 2)) hsortB
        rw [hlenA] at hspec
        rw [← hshape] at hspec
        exact hspec
      rw [hinner]
      constructor
      · -- permutation
        have h1 : (insort key acc[m' + 1] (A ++ [a]) ++ acc.drop (m' + 2)).Perm
            ((acc[m' + 1] :: (A ++ [a])) ++ acc.drop (m' + 2)) :=
          (insort_perm key _ _).append_right _
        rw [List.cons_append] at h1
        have h2 : (acc[m' + 1] :: ((A ++ [a]) ++ acc.drop (m' + 2))).Perm acc := by
          have hmid : ((A ++ [a]) ++ acc[m' + 1] :: acc.drop (m' + 2)).Perm
              (acc[m' + 1] :: ((A ++ [a]) ++ acc.drop (m' + 2))) := List.perm_middle
          have haccEq : (A ++ [a]) ++ acc[m' + 1] :: acc.drop (m' + 2) = acc := by
            rw [← hAa, ← hdecomp]
          rw [haccEq] at hmid
          exact hmid.symm
        exact (h1.trans h2).trans hperm
      · -- sortedness of the first m'+2 elements
        have hlenins : (insort key acc[m' + 1] (A ++ [a])).length = m' + 2 := by
          rw [insort_length]
          rw [hAa] at hlenB
          simp at hlenB ⊢
          omega
        rw [List.take_left' hlenins]
        exact insort_sorted key acc[m' + 1] (A ++ [a]) hsortB

/-- `insertion_sort` with the guard `key · > key ·` permutes its input and
sorts it into non-decreasing key order. -/
theorem insertion_sort_correct (key : α → K) (l : List α) :
    (insertion_sort (fun u v => decide (key v < key u)) l).Perm l ∧
      (insertion_sort (fun u v => decide (key v < key u)) l).Pairwise
        (fun u v => key u ≤ key v) := by
  obtain ⟨hperm, hsort⟩ := insertion_sort_invariant key l l.length (Nat.le_refl _)
  unfold insertion_sort
  refine ⟨hperm, ?_⟩
  have hlen : ((List.range l.length).foldl
      (insertion_sort_step (fun u v => decide (key v < key u))) l).length = l.length :=
    hperm.length_eq
  have htake : List.take l.length ((List.range l.length).foldl
      (insertion_sort_step (fun u v => decide (key v < key u))) l) =
      (List.range l.length).foldl
        (insertion_sort_step (fun u v => decide (key v < key u))) l :=
    List.take_of_length_le (le_of_eq hlen)
  rw [htake] at hsort
  exact hsort

end InsertionSortProof

/-! ## The Position Collector (claim C6) -/

namespace CollectProof

/-- The predicate "byte `k` of `tl` starts a word", where the byte before
`tl` (relevant for `k = 0`) was alphanumeric iff `prev`. -/
def wordStart (tl : List Byte) (prev : Bool) (k : Nat) : Bool :=
  isalnum (tl.getD k 0) && (if k = 0 then !prev else ! isalnum (tl.getD (k-1) 0))

theorem collect_loop_eq : ∀ (tl : List Byte) (n : Nat) (prev : Bool),
    collect_loop n prev tl =
      ((List.range tl.length).filter (wordStart tl prev)).map (n + ·)
  | [], n, prev => by simp [collect_loop]
  | c :: rest, n, prev => by
    rw [collect_loop, collect_loop_eq rest (n+1) (isalnum c)]
    have hrange : List.range (c :: rest).length =
        0 :: List.map Nat.succ (List.range rest.length) := by
      rw [List.length_cons, List.range_succ_eq_map]
    rw [hrange, List.filter_cons]
    have hw0 : wordStart (c :: rest) prev 0 = (isalnum c && !prev) := by
      simp [wordStart]
    have hcomp : (wordStart (c :: rest) prev) ∘ Nat.succ = wordStart rest (isalnum c) := by
      funext k
      simp only [Function.comp_apply, wordStart]
      cases k with
      | zero => simp
      | succ k' => simp
    rw [List.filter_map, hcomp, hw0]
    have hmap : List.map (n + ·) (List.map Nat.succ
        ((List.range rest.length).filter (wordStart rest (isalnum c)))) =
        List.map (n + 1 + ·) ((List.range rest.length).filter (wordStart rest (isalnum c))) := by
      rw [List.map_map]
      apply List.map_congr_left
      intro k _
      simp only [Function.comp_apply]
      omega
    by_cases hc : isalnum c && !prev
    · rw [if_pos hc, if_pos hc, List.map_cons, hmap]
      simp
    · rw [if_neg hc, if_neg hc, hmap]

theorem collect_eq_filter (text : List Byte) :
    collect_corpus_positions text =
      (List.range text.length).filter
        (fun i => isalnum (text.getD i 0) &&
          (decide (i = 0) || ! isalnum (text.getD (i-1) 0))) := by
  unfold collect_corpus_positions
  rw [collect_loop_eq]
  have hpred : wordStart text false = fun i => isalnum (text.getD i 0) &&
      (decide (i = 0) || ! isalnum (text.getD (i-1) 0)) := by
    funext k
    cases k with
    | zero => simp [wordStart]
    | succ k' => simp [wordStart]
  rw [hpred]
  have hmap : List.map (0 + ·) ((List.range text.length).filter
        (fun i => isalnum (text.getD i 0) &&
          (decide (i = 0) || ! isalnum (text.getD (i-1) 0)))) =
      List.map id ((List.range text.length).filter
        (fun i => isalnum (text.getD i 0) &&
          (decide (i = 0) || ! isalnum (text.getD (i-1) 0)))) := by
    apply List.map_congr_left
    intro k _
    simp
  rw [hmap, List.map_id]

end CollectProof

/-- C6: `collect_corpus_positions` emits exactly the offsets `i` whose byte is
ASCII-alphanumeric and is either at offset 0 or preceded by a
non-alphanumeric byte; the offsets are emitted in strictly ascending order,
so the index length is the number of word-start positions (the length of the
filtered range). -/
theorem collect_corpus_positions_correct (text : List Byte) :
    collect_corpus_positions text =
      (List.range text.length).filter
        (fun i => isalnum (text.getD i 0) &&
          (decide (i = 0) || ! isalnum (text.getD (i-1) 0))) ∧
    (∀ i, i ∈ collect_corpus_positions text ↔
      i < text.length ∧ isalnum (text.getD i 0) = true ∧
        (i = 0 ∨ isalnum (text.getD (i-1) 0) = false)) ∧
    (collect_corpus_positions text).Pairwise (· < ·) := by
  refine ⟨CollectProof.collect_eq_filter text, ?_, ?_⟩
  · intro i
    rw [CollectProof.collect_eq_filter text, List.mem_filter, List.mem_range]
    constructor
    · rintro ⟨h1, h2⟩
      simp only [Bool.and_eq_true, Bool.or_eq_true, decide_eq_true_eq,
        Bool.not_eq_true'] at h2
      exact ⟨h1, h2.1, h2.2⟩
    · rintro ⟨h1, h2, h3⟩
      refine ⟨h1, ?_⟩
      simp only [Bool.and_eq_true, Bool.or_eq_true, decide_eq_true_eq,
        Bool.not_eq_true']
      exact ⟨h2, h3⟩
  · rw [CollectProof.collect_eq_filter text]
    exact List.Pairwise.sublist (List.filter_sublist _) (List.pairwise_lt_range _)

/-- C7: for positions inside the text, `exact_compare` terminates (the fuel
embedding yields `some`), returns 0 exactly on equal positions, and otherwise
is negative exactly when the suffix at `p1` lexicographically precedes the
suffix at `p2`; an exhausted suffix that is a strict prefix of the other
sorts first. -/
theorem exact_compare_terminates_and_orders (text : List Byte) (p1 p2 : Nat)
    (h1 : p1 ≤ text.length) (h2 : p2 ≤ text.length) :
    ∃ r : Int, exact_compare text p1 p2 = some r ∧
      (r = 0 ↔ p1 = p2) ∧
      (r < 0 ↔ text.drop p1 < text.drop p2) ∧
      (text.drop p1 <+: text.drop p2 → p1 ≠ p2 → r < 0) := by
  rw [ExactCompare.exact_compare_master]
  by_cases hpq : p1 = p2
  · subst hpq
    refine ⟨0, ?_, ?_, ?_, ?_⟩
    · simp
    · simp
    · simp
    · intro _ hne
      exact absurd rfl hne
  · have hdropne : text.drop p1 ≠ text.drop p2 := by
      intro hEq
      have hlen := congrArg List.length hEq
      simp only [List.length_drop] at hlen
      omega
    rw [if_neg (fun hc => hdropne hc.1), if_neg hpq]
    by_cases hlt : text.drop p1 < text.drop p2
    · refine ⟨-1, by rw [if_pos hlt], ?_, ?_, ?_⟩
      · constructor
        · intro h
          omega
        · intro h
          exact absurd h hpq
      · simp [hlt]
      · intro _ _
        omega
    · refine ⟨1, by rw [if_neg hlt], ?_, ?_, ?_⟩
      · constructor
        · intro h
          omega
        · intro h
          exact absurd h hpq
      · constructor
        · intro h
          omega
        · intro h
          exact absurd h hlt
      · intro hpre _
        exact absurd (LexFacts.lt_of_prefix_ne hpre hdropne) hlt

/-- Witness for C7 at text "ab", positions 1 and 0: the comparator yields a
positive answer since the suffix "b" follows the suffix "ab". -/
theorem exact_compare_terminates_and_orders_witness :
    ∃ r : Int, exact_compare [97, 98] 1 0 = some r ∧
      (r = 0 ↔ 1 = 0) ∧
      (r < 0 ↔ List.drop 1 [97, 98] < List.drop 0 [97, 98]) ∧
      (List.drop 1 [97, 98] <+: List.drop 0 [97, 98] → 1 ≠ 0 → r < 0) :=
  exact_compare_terminates_and_orders [97, 98] 1 0 (by decide) (by decide)

/-- C1 (a code bug): the Verifier compares against text position 0 instead of
`index[0]`.  For the text "b a" the build produces the correctly sorted index
[2, 0] (its only adjacent pair is strictly increasing under the exact
comparator), yet `test_sortedness` records one violation — because its first
comparison is `exact_compare(0, index[1]) = exact_compare(0, 0)` — and the
build therefore exits non-zero. -/
theorem test_sortedness_rejects_correct_index :
    collect_corpus_positions [98, 32, 97] = [0, 2] ∧
    sort_suffix_array [98, 32, 97] [0, 2] 10000 = [2, 0] ∧
    exact_lt [98, 32, 97] 2 0 = true ∧
    test_sortedness [98, 32, 97] [2, 0] = 1 := by
  refine ⟨by decide, ?_, by decide, by decide⟩
  unfold sort_suffix_array
  have hq : quicksort ( take_prefix [98, 32, 97]) median_of_three [0, 2] 0 = [2, 0] := by
    simp +decide [quicksort, quicksort_subarray, partition, partition_loop,
      advance_lo, advance_hi, median_of_three, listSwap, take_prefix, pySlice,
      COMPARE_BUFFER_SIZE]
  rw [hq]
  decide

/-! ## Correctness of `partition` -/

namespace PartitionProof

open ListFacts

variable {α : Type} [Inhabited α] [DecidableEq α] {K : Type} [LinearOrder K]

theorem advance_lo_le_succ (key : α → K) (l : List α) (pk : K) (hi : Nat) :
    ∀ lo, lo ≤ hi + 1 → advance_lo key l pk hi lo ≤ hi + 1 := by
  intro lo
  induction lo using advance_lo.induct key l pk hi with
  | case1 lo h ih =>
    intro _
    rw [advance_lo, if_pos h]
    exact ih (by omega)
  | case2 lo h =>
    intro hlo
    rw [advance_lo, if_neg h]
    exact hlo

theorem advance_lo_lt_pk (key : α → K) (l : List α) (pk : K) (hi : Nat) :
    ∀ lo m, lo ≤ m → m < advance_lo key l pk hi lo →
      key (l.getD m default) < pk := by
  intro lo
  induction lo using advance_lo.induct key l pk hi with
  | case1 lo h ih =>
    intro m hm1 hm2
    rw [advance_lo, if_pos h] at hm2
    rcases eq_or_lt_of_le hm1 with rfl | hlt
    · exact h.2
    · exact ih m (by omega) hm2
  | case2 lo h =>
    intro m hm1 hm2
    rw [advance_lo, if_neg h] at hm2
    omega

theorem advance_lo_stop (key : α → K) (l : List α) (pk : K) (hi : Nat) :
    ∀ lo, advance_lo key l pk hi lo ≤ hi →
      ¬ key (l.getD (advance_lo key l pk hi lo) default) < pk := by
  intro lo
  induction lo using advance_lo.induct key l pk hi with
  | case1 lo h ih =>
    rw [advance_lo, if_pos h]
    exact ih
  | case2 lo h =>
    rw [advance_lo, if_neg h]
    intro hle hkey
    exact h ⟨hle, hkey⟩

theorem advance_hi_ge_min (key : α → K) (l : List α) (pk : K) (lo : Nat) :
    ∀ hi, min (lo - 1) hi ≤ advance_hi key l pk lo hi := by
  intro hi
  induction hi with
  | zero => simp [advance_hi]
  | succ h ih =>
    rw [advance_hi]
    by_cases hc : lo ≤ h+1 ∧ key (l.getD (h+1) default) > pk
    · rw [if_pos hc]
      have := hc.1
      omega
    · rw [if_neg hc]
      omega

theorem advance_hi_gt_pk (key : α → K) (l : List α) (pk : K) (lo : Nat) :
    ∀ hi m, advance_hi key l pk lo hi < m → m ≤ hi →
      key (l.getD m default) > pk := by
  intro hi
  induction hi with
  | zero =>
    intro m hm1 hm2
    simp [advance_hi] at hm1
    omega
  | succ h ih =>
    intro m hm1 hm2
    rw [advance_hi] at hm1
    by_cases hc : lo ≤ h+1 ∧ key (l.getD (h+1) default) > pk
    · rw [if_pos hc] at hm1
      rcases eq_or_lt_of_le hm2 with rfl | hlt
      · exact hc.2
      · exact ih m hm1 (by omega)
    · rw [if_neg hc] at hm1
      omega

theorem advance_hi_stop (key : α → K) (l : List α) (pk : K) (lo : Nat) :
    ∀ hi, 1 ≤ lo → lo ≤ advance_hi key l pk lo hi →
      ¬ key (l.getD (advance_hi key l pk lo hi) default) > pk := by
  intro hi
  induction hi with
  | zero =>
    intro hlo hle
    simp [advance_hi] at hle
    omega
  | succ h ih =>
    intro hlo hle
    rw [advance_hi] at hle ⊢
    by_cases hc : lo ≤ h+1 ∧ key (l.getD (h+1) default) > pk
    · rw [if_pos hc] at hle ⊢
      exact ih hlo hle
    · rw [if_neg hc] at hle ⊢
      intro hkey
      exact hc ⟨hle, hkey⟩

end PartitionProof

namespace PartitionProof

theorem getD_congr {α : Type} [Inhabited α] {l1 l2 : List α} {m : Nat}
    (h : l1[m]? = l2[m]?) : l1.getD m default = l2.getD m default := by
  rw [List.getD_eq_getElem?_getD, List.getD_eq_getElem?_getD, h]

variable {α : Type} [Inhabited α] [DecidableEq α] {K : Type} [LinearOrder K]

theorem getD_listSwap (l : List α) (i j m : Nat)
    (hi : i < l.length) (hj : j < l.length) :
    (listSwap l i j).getD m default =
      if m = j then l.getD i default
      else if m = i then l.getD j default
      else l.getD m default := by
  rw [List.getD_eq_getElem?_getD, ListFacts.getElem?_listSwap l i j m hi hj]
  rcases eq_or_ne m j with rfl | hmj
  · rw [if_pos rfl, if_pos rfl, ListFacts.getD_eq_getElem l i hi]
    rfl
  · rw [if_neg hmj, if_neg hmj]
    rcases eq_or_ne m i with rfl | hmi
    · rw [if_pos rfl, if_pos rfl, ListFacts.getD_eq_getElem l j hj]
      rfl
    · rw [if_neg hmi, if_neg hmi, List.getD_eq_getElem?_getD]

theorem partition_loop_spec (key : α → K) (pk : K) (pp : Nat) :
    ∀ (l : List α) (lo hi : Nat),
      pp < lo → pp ≤ hi → hi < l.length → lo ≤ hi + 2 →
      (∀ m, pp < m → m < lo → key (l.getD m default) ≤ pk) →
      ((partition_loop key pk l lo hi).1.length = l.length ∧
       (partition_loop key pk l lo hi).1.Perm l ∧
       (∀ m, m < lo ∨ hi < m → (partition_loop key pk l lo hi).1[m]? = l[m]?) ∧
       pp ≤ (partition_loop key pk l lo hi).2 ∧
       (partition_loop key pk l lo hi).2 ≤ hi ∧
       (∀ m, pp < m → m ≤ (partition_loop key pk l lo hi).2 →
         key ((partition_loop key pk l lo hi).1.getD m default) ≤ pk) ∧
       (∀ m, (partition_loop key pk l lo hi).2 < m → m ≤ hi →
         pk ≤ key ((partition_loop key pk l lo hi).1.getD m default)) ∧
       ((partition_loop key pk l lo hi).2 = pp ∨
         key ((partition_loop key pk l lo hi).1.getD
           (partition_loop key pk l lo hi).2 default) ≤ pk)) := by
  intro l lo hi
  induction l, lo, hi using partition_loop.induct key pk with
  | case1 l lo hi h =>
    intro hpp hpphi hhil hlohi2 hbelow
    rw [partition_loop, dif_pos h]
    have hA1 : lo ≤ advance_lo key l pk hi lo := le_advance_lo key l pk hi lo
    have hH1 : advance_hi key l pk (advance_lo key l pk hi lo) hi ≤ hi :=
      advance_hi_le key l pk _ hi
    have hHmin : min (advance_lo key l pk hi lo - 1) hi ≤
        advance_hi key l pk (advance_lo key l pk hi lo) hi :=
      advance_hi_ge_min key l pk _ hi
    have hC5 : ∀ m, pp < m → m ≤ advance_hi key l pk (advance_lo key l pk hi lo) hi →
        key (l.getD m default) ≤ pk := by
      intro m hm1 hm2
      by_cases hmlo : m < lo
      · exact hbelow m hm1 hmlo
      · have hmA : m < advance_lo key l pk hi lo := by omega
        exact le_of_lt (advance_lo_lt_pk key l pk hi lo m (by omega) hmA)
    refine ⟨rfl, List.Perm.refl l, fun m _ => rfl, by omega, hH1, hC5, ?_, ?_⟩
    · intro m hm1 hm2
      exact le_of_lt (advance_hi_gt_pk key l pk _ hi m hm1 hm2)
    · rcases eq_or_ne (advance_hi key l pk (advance_lo key l pk hi lo) hi) pp with hEq | hne
      · exact Or.inl hEq
      · exact Or.inr (hC5 _ (by omega) (Nat.le_refl _))
  | case2 l lo hi h ih =>
    intro hpp hpphi hhil hlohi2 hbelow
    rw [partition_loop, dif_neg h]
    have hAH : advance_lo key l pk hi lo ≤
        advance_hi key l pk (advance_lo key l pk hi lo) hi := not_lt.mp h
    have hA1 : lo ≤ advance_lo key l pk hi lo := le_advance_lo key l pk hi lo
    have hH1 : advance_hi key l pk (advance_lo key l pk hi lo) hi ≤ hi :=
      advance_hi_le key l pk _ hi
    have hAhi : advance_lo key l pk hi lo ≤ hi := le_trans hAH hH1
    have hHlen : advance_hi key l pk (advance_lo key l pk hi lo) hi < l.length := by
      omega
    have hAlen : advance_lo key l pk hi lo < l.length := by omega
    have hstopA : ¬ key (l.getD (advance_lo key l pk hi lo) default) < pk :=
      advance_lo_stop key l pk hi lo hAhi
    have hstopH : ¬ key (l.getD
        (advance_hi key l pk (advance_lo key l pk hi lo) hi) default) > pk :=
      advance_hi_stop key l pk (advance_lo key l pk hi lo) hi (by omega) hAH
    have hbelow' : ∀ m, pp < m → m < advance_lo key l pk hi lo + 1 →
        key ((listSwap l (advance_lo key l pk hi lo)
          (advance_hi key l pk (advance_lo key l pk hi lo) hi)).getD m default) ≤ pk := by
      intro m hm1 hm2
      rcases eq_or_ne m (advance_lo key l pk hi lo) with rfl | hmA
      · rw [getD_listSwap l _ _ _ hAlen hHlen]
        by_cases hAH' : advance_lo key l pk hi lo =
            advance_hi key l pk (advance_lo key l pk hi lo) hi
        · rw [if_pos hAH']
          rw [hAH']
          exact le_of_not_lt hstopH
        · rw [if_neg hAH', if_pos rfl]
          exact le_of_not_lt hstopH
      · have hmA' : m < advance_lo key l pk hi lo := by omega
        rw [getD_listSwap l _ _ m hAlen hHlen, if_neg (by omega), if_neg hmA]
        by_cases hmlo : m < lo
        · exact hbelow m hm1 hmlo
        · exact le_of_lt (advance_lo_lt_pk key l pk hi lo m (by omega) hmA')
    obtain ⟨ihlen, ihperm, ihout, ihge, ihle, ihC5, ihC6, ihC7⟩ :=
      ih (by omega) (by omega) (by simp; omega) (by omega) hbelow'
    refine ⟨?_, ?_, ?_, ?_, ?_, ?_, ?_, ?_⟩
    · rw [ihlen]
      simp
    · exact ihperm.trans (ListFacts.listSwap_perm l _ _ hAlen hHlen)
    · intro m hm
      have hout1 := ihout m (by omega)
      rw [hout1]
      apply ListFacts.getElem?_listSwap_of_ne l _ _ m hAlen hHlen
      · omega
      · omega
    · omega
    · omega
    · exact ihC5
    · intro m hm1 hm2
      by_cases hmH : m ≤ advance_hi key l pk (advance_lo key l pk hi lo) hi - 1
      · exact ihC6 m hm1 hmH
      · have hval := ihout m (by omega)
        have hgd := getD_congr hval
        rw [hgd]
        rcases eq_or_ne m (advance_hi key l pk (advance_lo key l pk hi lo) hi) with
          rfl | hmH'
        · rw [getD_listSwap l _ _ _ hAlen hHlen, if_pos rfl]
          exact le_of_not_lt hstopA
        · have hmgt : advance_hi key l pk (advance_lo key l pk hi lo) hi < m := by
            omega
          rw [getD_listSwap l _ _ m hAlen hHlen, if_neg hmH', if_neg (by omega)]
          exact le_of_lt (advance_hi_gt_pk key l pk _ hi m hmgt hm2)
    · exact ihC7

end PartitionProof

namespace PartitionProof

variable {α : Type} [Inhabited α] [DecidableEq α] {K : Type} [LinearOrder K]

theorem partition_spec (key : α → K) (psel : PivotSelector α K) (l : List α)
    (lo hi : Nat) (hlohi : lo < hi) (hhil : hi ≤ l.length)
    (hp1 : lo ≤ psel l lo hi key) (hp2 : psel l lo hi key < hi) :
    (partition key psel l lo hi).1.length = l.length ∧
    (partition key psel l lo hi).1.Perm l ∧
    (∀ m, m < lo ∨ hi ≤ m → (partition key psel l lo hi).1[m]? = l[m]?) ∧
    lo ≤ (partition key psel l lo hi).2 ∧ (partition key psel l lo hi).2 < hi ∧
    (∀ m, lo ≤ m → m < (partition key psel l lo hi).2 →
      key ((partition key psel l lo hi).1.getD m default) ≤
        key ((partition key psel l lo hi).1.getD
          (partition key psel l lo hi).2 default)) ∧
    (∀ m, (partition key psel l lo hi).2 ≤ m → m < hi →
      key ((partition key psel l lo hi).1.getD
          (partition key psel l lo hi).2 default) ≤
        key ((partition key psel l lo hi).1.getD m default)) := by
  have hpIlen : psel l lo hi key < l.length := by omega
  have hlolen : lo < l.length := by omega
  have hl1len : (listSwap l lo (psel l lo hi key)).length = l.length := by simp
  obtain ⟨len2, perm2, out2, ge2, le2, hC5, hC6, hC7⟩ :=
    partition_loop_spec key
      (key ((listSwap l lo (psel l lo hi key)).getD lo default)) lo
      (listSwap l lo (psel l lo hi key)) (lo+1) (hi-1)
      (by omega) (by omega) (by omega) (by omega)
      (by intro m hm1 hm2; omega)
  simp only [partition]
  set pk := key ((listSwap l lo (psel l lo hi key)).getD lo default) with hpkdef
  set RES := partition_loop key pk (listSwap l lo (psel l lo hi key)) (lo+1) (hi-1)
    with hRESdef
  have hfinlt : RES.2 < hi := by omega
  have hfinge : lo ≤ RES.2 := by omega
  have hl2len : RES.1.length = l.length := by rw [len2, hl1len]
  have hfinlen : RES.2 < RES.1.length := by omega
  have hlolen2 : lo < RES.1.length := by omega
  -- the pivot value is still at position lo when the loop finishes
  have hl2lo : RES.1[lo]? = (listSwap l lo (psel l lo hi key))[lo]? :=
    out2 lo (by omega)
  have hkeyfin : key ((listSwap RES.1 lo RES.2).getD RES.2 default) = pk := by
    rw [getD_listSwap RES.1 lo RES.2 RES.2 hlolen2 hfinlen, if_pos rfl]
    rw [getD_congr hl2lo]
  refine ⟨by simp [hl2len], ?_, ?_, hfinge, hfinlt, ?_, ?_⟩
  · -- permutation
    exact ((ListFacts.listSwap_perm RES.1 lo RES.2 hlolen2 hfinlen).trans perm2).trans
      (ListFacts.listSwap_perm l lo (psel l lo hi key) hlolen hpIlen)
  · -- outside the subrange nothing changed
    intro m hm
    have h3 : (listSwap RES.1 lo RES.2)[m]? = RES.1[m]? := by
      apply ListFacts.getElem?_listSwap_of_ne RES.1 lo RES.2 m hlolen2 hfinlen
      · omega
      · omega
    have h2 : RES.1[m]? = (listSwap l lo (psel l lo hi key))[m]? :=
      out2 m (by omega)
    have h1 : (listSwap l lo (psel l lo hi key))[m]? = l[m]? := by
      apply ListFacts.getElem?_listSwap_of_ne l lo (psel l lo hi key) m hlolen hpIlen
      · omega
      · omega
    rw [h3, h2, h1]
  · -- left of the returned pivot position: keys ≤ pivot key
    intro m hm1 hm2
    rw [hkeyfin]
    by_cases hmlo : m = lo
    · rw [hmlo, getD_listSwap RES.1 lo RES.2 lo hlolen2 hfinlen, if_neg (by omega),
        if_pos rfl]
      rcases hC7 with hEq | hle'
      · omega
      · exact hle'
    · rw [getD_listSwap RES.1 lo RES.2 m hlolen2 hfinlen, if_neg (by omega),
        if_neg hmlo]
      exact hC5 m (by omega) (by omega)
  · -- at and right of the returned pivot position: keys ≥ pivot key
    intro m hm1 hm2
    rw [hkeyfin]
    rcases eq_or_ne m RES.2 with rfl | hmfin
    · rw [hkeyfin]
    · have hmgt : RES.2 < m := by omega
      rw [getD_listSwap RES.1 lo RES.2 m hlolen2 hfinlen, if_neg hmfin,
        if_neg (by omega)]
      exact hC6 m hmgt (by omega)

end PartitionProof

/-! ## Slice toolkit and `builtin_timsort` facts -/

namespace SliceFacts

variable {α : Type} [Inhabited α]

theorem getElem?_pySlice (l : List α) (lo hi k : Nat) :
    (pySlice l lo hi)[k]? = if k < hi - lo then l[lo + k]? else none := by
  unfold pySlice
  rw [List.getElem?_take]
  by_cases hk : k < hi - lo
  · rw [if_pos hk, if_pos hk, List.getElem?_drop]
  · rw [if_neg hk, if_neg hk]

@[simp] theorem length_pySlice (l : List α) (lo hi : Nat) :
    (pySlice l lo hi).length = min (hi - lo) (l.length - lo) := by
  simp [pySlice]

theorem pySlice_eq_of_agree {l1 l2 : List α} (lo hi : Nat)
    (h : ∀ m, lo ≤ m → m < hi → l1[m]? = l2[m]?) :
    pySlice l1 lo hi = pySlice l2 lo hi := by
  apply List.ext_getElem?
  intro k
  rw [getElem?_pySlice, getElem?_pySlice]
  by_cases hk : k < hi - lo
  · rw [if_pos hk, if_pos hk]
    exact h (lo + k) (by omega) (by omega)
  · rw [if_neg hk, if_neg hk]

theorem pySlice_decompose (l : List α) (lo hi : Nat)
    (h1 : lo ≤ hi) (h2 : hi ≤ l.length) :
    l = l.take lo ++ pySlice l lo hi ++ l.drop hi := by
  unfold pySlice
  conv_lhs => rw [← List.take_append_drop lo l]
  rw [List.append_assoc]
  congr 1
  conv_lhs => rw [← List.take_append_drop (hi - lo) (l.drop lo)]
  rw [List.drop_drop]
  congr 2
  omega

theorem pySlice_perm_of_agree {l1 l2 : List α} (lo hi : Nat)
    (hperm : l1.Perm l2) (hlo : lo ≤ hi) (hhi : hi ≤ l1.length)
    (hlen : l1.length = l2.length)
    (h : ∀ m, m < lo ∨ hi ≤ m → l1[m]? = l2[m]?) :
    (pySlice l1 lo hi).Perm (pySlice l2 lo hi) := by
  have htake : l1.take lo = l2.take lo := by
    apply List.ext_getElem?
    intro k
    rw [List.getElem?_take, List.getElem?_take]
    by_cases hk : k < lo
    · rw [if_pos hk, if_pos hk]
      exact h k (Or.inl hk)
    · rw [if_neg hk, if_neg hk]
  have hdrop : l1.drop hi = l2.drop hi := by
    apply List.ext_getElem?
    intro k
    rw [List.getElem?_drop, List.getElem?_drop]
    exact h (hi + k) (Or.inr (by omega))
  have hd1 := pySlice_decompose l1 lo hi hlo hhi
  have hd2 := pySlice_decompose l2 lo hi hlo (by omega)
  rw [hd1, hd2, htake, hdrop] at hperm
  rw [List.append_assoc, List.append_assoc] at hperm
  have h1 := (List.perm_append_left_iff (l2.take lo)).mp hperm
  exact (List.perm_append_right_iff (l2.drop hi)).mp h1

theorem mem_pySlice {l : List α} {lo hi : Nat} {x : α}
    (hx : x ∈ pySlice l lo hi) :
    ∃ m, lo ≤ m ∧ m < hi ∧ m < l.length ∧ l.getD m default = x := by
  obtain ⟨k, hk⟩ := List.mem_iff_getElem?.mp hx
  rw [getElem?_pySlice] at hk
  by_cases hklt : k < hi - lo
  · rw [if_pos hklt] at hk
    refine ⟨lo + k, by omega, by omega, ?_, ?_⟩
    · by_contra hge
      rw [List.getElem?_eq_none (by omega)] at hk
      exact Option.noConfusion hk
    · rw [List.getD_eq_getElem?_getD, hk]
      rfl
  · rw [if_neg hklt] at hk
    exact Option.noConfusion hk

theorem pySlice_glue (l : List α) (lo p hi : Nat)
    (h1 : lo ≤ p) (h2 : p < hi) (h3 : hi ≤ l.length) :
    pySlice l lo hi = pySlice l lo p ++ l.getD p default :: pySlice l (p+1) hi := by
  have hplen : p < l.length := by omega
  have hlpl : (pySlice l lo p).length = p - lo := by
    simp
    omega
  apply List.ext_getElem?
  intro k
  rw [getElem?_pySlice]
  by_cases hk : k < hi - lo
  · rw [if_pos hk]
    by_cases hk2 : k < p - lo
    · rw [ListFacts.getElem?_append_lt (by rw [hlpl]; exact hk2), getElem?_pySlice,
        if_pos hk2]
    · rw [List.getElem?_append_right (by rw [hlpl]; omega), hlpl]
      rcases hj : k - (p - lo) with _ | j'
      · rw [List.getElem?_cons_zero]
        have hkp : lo + k = p := by omega
        rw [hkp, List.getElem?_eq_getElem hplen, ListFacts.getD_eq_getElem l p hplen]
      · rw [List.getElem?_cons_succ, getElem?_pySlice]
        have hjlt : j' < hi - (p + 1) := by omega
        rw [if_pos hjlt]
        congr 1
        omega
  · rw [if_neg hk, eq_comm, List.getElem?_eq_none]
    rw [List.length_append, List.length_cons, hlpl]
    simp only [length_pySlice]
    omega

end SliceFacts

/-! ## `builtin_timsort` facts -/

namespace TimsortProof

open SliceFacts

variable {α : Type} [Inhabited α] {K : Type} [LinearOrder K]

theorem drop_length_take (s : List α) (n : Nat) :
    s.drop ((s.take n).length) = s.drop n := by
  rw [List.length_take]
  rcases Nat.le_total n s.length with h | h
  · rw [Nat.min_eq_left h]
  · rw [Nat.min_eq_right h, List.drop_eq_nil_of_le (Nat.le_refl _),
      List.drop_eq_nil_of_le h]

theorem builtin_timsort_perm (key : α → K) (l : List α) (lo hi : Nat) :
    (builtin_timsort key l lo hi).Perm l := by
  have hms : ((pySlice l lo hi).mergeSort
      (fun x y => decide (key x ≤ key y))).Perm (pySlice l lo hi) :=
    List.mergeSort_perm _ _
  have hlen : ((pySlice l lo hi).mergeSort
      (fun x y => decide (key x ≤ key y))).length = (pySlice l lo hi).length :=
    List.length_mergeSort _
  have hdecomp : l.take lo ++ pySlice l lo hi ++
      l.drop (lo + (pySlice l lo hi).length) = l := by
    unfold pySlice
    rw [← List.drop_drop, drop_length_take]
    conv_rhs => rw [← List.take_append_drop lo l]
    rw [List.append_assoc]
    congr 1
    exact List.take_append_drop _ _
  show (l.take lo ++ (pySlice l lo hi).mergeSort (fun x y => decide (key x ≤ key y)) ++
      l.drop (lo + ((pySlice l lo hi).mergeSort
        (fun x y => decide (key x ≤ key y))).length)).Perm l
  rw [hlen]
  conv_rhs => rw [← hdecomp]
  exact List.Perm.append (List.Perm.append_left _ hms) (List.Perm.refl _)

theorem builtin_timsort_length (key : α → K) (l : List α) (lo hi : Nat) :
    (builtin_timsort key l lo hi).length = l.length :=
  (builtin_timsort_perm key l lo hi).length_eq

theorem builtin_timsort_outside (key : α → K) (l : List α) (lo hi : Nat)
    (hlo : lo ≤ hi) (hhi : hi ≤ l.length) :
    ∀ m, m < lo ∨ hi ≤ m → (builtin_timsort key l lo hi)[m]? = l[m]? := by
  intro m hm
  have hsl : (pySlice l lo hi).length = hi - lo := by
    simp
    omega
  have hmsl : ((pySlice l lo hi).mergeSort
      (fun x y => decide (key x ≤ key y))).length = hi - lo := by
    rw [List.length_mergeSort, hsl]
  have htl : (l.take lo).length = lo := by
    rw [List.length_take]
    omega
  show (l.take lo ++ (pySlice l lo hi).mergeSort (fun x y => decide (key x ≤ key y)) ++
      l.drop (lo + ((pySlice l lo hi).mergeSort
        (fun x y => decide (key x ≤ key y))).length))[m]? = l[m]?
  rcases hm with hmlo | hmhi
  · have h1 : m < (l.take lo ++ (pySlice l lo hi).mergeSort
        (fun x y => decide (key x ≤ key y))).length := by
      rw [List.length_append, htl]
      omega
    rw [ListFacts.getElem?_append_lt h1]
    have h2 : m < (l.take lo).length := by
      rw [htl]
      exact hmlo
    rw [ListFacts.getElem?_append_lt h2]
    rw [List.getElem?_take, if_pos hmlo]
  · have h1 : (l.take lo ++ (pySlice l lo hi).mergeSort
        (fun x y => decide (key x ≤ key y))).length ≤ m := by
      rw [List.length_append, htl, hmsl]
      omega
    rw [List.getElem?_append_right h1, List.getElem?_drop]
    congr 1
    rw [List.length_append, htl, hmsl]
    omega

theorem builtin_timsort_sorted (key : α → K) (l : List α) (lo hi : Nat)
    (hlo : lo ≤ hi) (hhi : hi ≤ l.length) :
    (pySlice (builtin_timsort key l lo hi) lo hi).Pairwise
      (fun u v => key u ≤ key v) := by
  have hsl : (pySlice l lo hi).length = hi - lo := by
    simp
    omega
  have hmsl : ((pySlice l lo hi).mergeSort
      (fun x y => decide (key x ≤ key y))).length = hi - lo := by
    rw [List.length_mergeSort, hsl]
  have htl : (l.take lo).length = lo := by
    rw [List.length_take]
    omega
  have hslice : pySlice (builtin_timsort key l lo hi) lo hi =
      (pySlice l lo hi).mergeSort (fun x y => decide (key x ≤ key y)) := by
    apply List.ext_getElem?
    intro k
    rw [getElem?_pySlice]
    by_cases hk : k < hi - lo
    · rw [if_pos hk]
      show (l.take lo ++ (pySlice l lo hi).mergeSort
          (fun x y => decide (key x ≤ key y)) ++
          l.drop (lo + ((pySlice l lo hi).mergeSort
            (fun x y => decide (key x ≤ key y))).length))[lo + k]? = _
      have h1 : (l.take lo).length ≤ lo + k := by
        rw [htl]
        omega
      rw [List.append_assoc, List.getElem?_append_right h1]
      have h2 : lo + k - (l.take lo).length < ((pySlice l lo hi).mergeSort
          (fun x y => decide (key x ≤ key y))).length := by
        rw [htl, hmsl]
        omega
      rw [ListFacts.getElem?_append_lt h2]
      congr 1
      rw [htl]
      omega
    · rw [if_neg hk, eq_comm, List.getElem?_eq_none]
      rw [hmsl]
      omega
  rw [hslice]
  have htrans : ∀ (a b c : α), (fun x y => decide (key x ≤ key y)) a b = true →
      (fun x y => decide (key x ≤ key y)) b c = true →
      (fun x y => decide (key x ≤ key y)) a c = true := by
    intro a b c hab hbc
    simp only [decide_eq_true_eq] at hab hbc ⊢
    exact le_trans hab hbc
  have htotal : ∀ (a b : α), ((fun x y => decide (key x ≤ key y)) a b ||
      (fun x y => decide (key x ≤ key y)) b a) = true := by
    intro a b
    simp only [Bool.or_eq_true, decide_eq_true_eq]
    exact le_total (key a) (key b)
  have hp := List.sorted_mergeSort htrans htotal (pySlice l lo hi)
  refine hp.imp ?_
  intro a b hab
  simpa using hab

end TimsortProof

/-! ## Correctness of `quicksort` -/

namespace QuicksortProof

open SliceFacts TimsortProof PartitionProof

variable {α : Type} [Inhabited α] [DecidableEq α] {K : Type} [LinearOrder K]

theorem quicksort_subarray_spec (key : α → K) (psel : PivotSelector α K) (cutoff : Nat)
    (hpsel : ∀ (l' : List α) (lo' hi' : Nat), lo' < hi' →
      lo' ≤ psel l' lo' hi' key ∧ psel l' lo' hi' key < hi') :
    ∀ (fuel : Nat) (l : List α) (lo hi : Nat), hi - lo ≤ fuel → hi ≤ l.length →
      ((quicksort_subarray key psel cutoff fuel l lo hi).length = l.length ∧
       (quicksort_subarray key psel cutoff fuel l lo hi).Perm l ∧
       (∀ m, m < lo ∨ hi ≤ m →
         (quicksort_subarray key psel cutoff fuel l lo hi)[m]? = l[m]?) ∧
       (pySlice (quicksort_subarray key psel cutoff fuel l lo hi) lo hi).Pairwise
         (fun u v => key u ≤ key v)) := by
  intro fuel
  induction fuel with
  | zero =>
    intro l lo hi hfuel hhi
    have hslice : pySlice l lo hi = [] := by
      unfold pySlice
      have hz : hi - lo = 0 := by omega
      rw [hz]
      rfl
    refine ⟨rfl, List.Perm.refl l, fun m _ => rfl, ?_⟩
    show (pySlice l lo hi).Pairwise (fun u v => key u ≤ key v)
    rw [hslice]
    exact List.Pairwise.nil
  | succ fuel ih =>
    intro l lo hi hfuel hhi
    simp only [quicksort_subarray]
    by_cases hsz : hi - lo = 0
    · rw [if_pos hsz]
      have hslice : pySlice l lo hi = [] := by
        unfold pySlice
        rw [hsz]
        rfl
      refine ⟨rfl, List.Perm.refl l, fun m _ => rfl, ?_⟩
      rw [hslice]
      exact List.Pairwise.nil
    · rw [if_neg hsz]
      have hlohi : lo < hi := by omega
      by_cases hcut : cutoff ≥ hi - lo
      · rw [if_pos hcut]
        exact ⟨builtin_timsort_length key l lo hi, builtin_timsort_perm key l lo hi,
          builtin_timsort_outside key l lo hi (le_of_lt hlohi) hhi,
          builtin_timsort_sorted key l lo hi (le_of_lt hlohi) hhi⟩
      · rw [if_neg hcut]
        obtain ⟨hpl, hpr⟩ := hpsel l lo hi hlohi
        obtain ⟨plen, pperm, pout, ppge, pplt, pC5, pC6⟩ :=
          partition_spec key psel l lo hi hlohi hhi hpl hpr
        obtain ⟨Llen, Lperm, Lout, Lsort⟩ :=
          ih (partition key psel l lo hi).1 lo (partition key psel l lo hi).2
            (by omega) (by omega)
        obtain ⟨Rlen, Rperm, Rout, Rsort⟩ :=
          ih (quicksort_subarray key psel cutoff fuel (partition key psel l lo hi).1 lo
              (partition key psel l lo hi).2)
            ((partition key psel l lo hi).2 + 1) hi (by omega) (by rw [Llen, plen]; omega)
        refine ⟨?_, ?_, ?_, ?_⟩
        · rw [Rlen, Llen, plen]
        · exact (Rperm.trans Lperm).trans pperm
        · intro m hm
          rw [Rout m (by omega), Lout m (by omega), pout m hm]
        · -- sortedness of the [lo, hi) slice after both recursive calls
          have hqRlen : (quicksort_subarray key psel cutoff fuel
              (quicksort_subarray key psel cutoff fuel (partition key psel l lo hi).1 lo
                (partition key psel l lo hi).2)
              ((partition key psel l lo hi).2 + 1) hi).length = l.length := by
            rw [Rlen, Llen, plen]
          have hsliceL : pySlice (quicksort_subarray key psel cutoff fuel
              (quicksort_subarray key psel cutoff fuel (partition key psel l lo hi).1 lo
                (partition key psel l lo hi).2)
              ((partition key psel l lo hi).2 + 1) hi) lo (partition key psel l lo hi).2 =
              pySlice (quicksort_subarray key psel cutoff fuel
                (partition key psel l lo hi).1 lo (partition key psel l lo hi).2) lo
                (partition key psel l lo hi).2 := by
            apply pySlice_eq_of_agree
            intro m hm1 hm2
            exact Rout m (by omega)
          have hgetp : (quicksort_subarray key psel cutoff fuel
              (quicksort_subarray key psel cutoff fuel (partition key psel l lo hi).1 lo
                (partition key psel l lo hi).2)
              ((partition key psel l lo hi).2 + 1) hi).getD
                (partition key psel l lo hi).2 default =
              (partition key psel l lo hi).1.getD (partition key psel l lo hi).2 default := by
            apply getD_congr
            rw [Rout (partition key psel l lo hi).2 (by omega)]
            exact Lout (partition key psel l lo hi).2 (by omega)
          have hsliceLperm : (pySlice (quicksort_subarray key psel cutoff fuel
              (partition key psel l lo hi).1 lo (partition key psel l lo hi).2) lo
                (partition key psel l lo hi).2).Perm
              (pySlice (partition key psel l lo hi).1 lo (partition key psel l lo hi).2) := by
            apply pySlice_perm_of_agree lo (partition key psel l lo hi).2 Lperm
              (by omega) (by rw [Llen, plen]; omega) (by rw [Llen]) ?_
            intro m hm
            exact Lout m hm
          have hsliceReq : pySlice (quicksort_subarray key psel cutoff fuel
              (partition key psel l lo hi).1 lo (partition key psel l lo hi).2)
                ((partition key psel l lo hi).2 + 1) hi =
              pySlice (partition key psel l lo hi).1
                ((partition key psel l lo hi).2 + 1) hi := by
            apply pySlice_eq_of_agree
            intro m hm1 hm2
            exact Lout m (by omega)
          have hsliceRperm : (pySlice (quicksort_subarray key psel cutoff fuel
              (quicksort_subarray key psel cutoff fuel (partition key psel l lo hi).1 lo
                (partition key psel l lo hi).2)
              ((partition key psel l lo hi).2 + 1) hi)
                ((partition key psel l lo hi).2 + 1) hi).Perm
              (pySlice (partition key psel l lo hi).1
                ((partition key psel l lo hi).2 + 1) hi) := by
            rw [← hsliceReq]
            apply pySlice_perm_of_agree ((partition key psel l lo hi).2 + 1) hi Rperm
              (by omega) (by rw [Rlen, Llen, plen]; omega) (by rw [Rlen]) ?_
            intro m hm
            exact Rout m hm
          have hB1 : ∀ x ∈ pySlice (partition key psel l lo hi).1 lo
              (partition key psel l lo hi).2,
              key x ≤ key ((partition key psel l lo hi).1.getD
                (partition key psel l lo hi).2 default) := by
            intro x hx
            obtain ⟨m, hm1, hm2, hm3, hm4⟩ := mem_pySlice hx
            rw [← hm4]
            exact pC5 m hm1 hm2
          have hB2 : ∀ x ∈ pySlice (partition key psel l lo hi).1
              ((partition key psel l lo hi).2 + 1) hi,
              key ((partition key psel l lo hi).1.getD
                (partition key psel l lo hi).2 default) ≤ key x := by
            intro x hx
            obtain ⟨m, hm1, hm2, hm3, hm4⟩ := mem_pySlice hx
            rw [← hm4]
            exact pC6 m (by omega) hm2
          rw [pySlice_glue _ lo (partition key psel l lo hi).2 hi (by omega) pplt
            (by rw [hqRlen]; omega)]
          rw [List.pairwise_append]
          refine ⟨?_, ?_, ?_⟩
          · rw [hsliceL]
            exact Lsort
          · rw [List.pairwise_cons]
            refine ⟨?_, Rsort⟩
            intro a ha
            rw [hgetp]
            exact hB2 a (hsliceRperm.mem_iff.mp ha)
          · intro a ha b hb
            rw [hsliceL] at ha
            have haB : key a ≤ key ((partition key psel l lo hi).1.getD
                (partition key psel l lo hi).2 default) :=
              hB1 a (hsliceLperm.mem_iff.mp ha)
            rcases List.mem_cons.mp hb with rfl | hb'
            · rw [hgetp]
              exact haB
            · exact le_trans haB (hB2 b (hsliceRperm.mem_iff.mp hb'))

end QuicksortProof

namespace QuicksortProof

variable {α : Type} [Inhabited α] [DecidableEq α] {K : Type} [LinearOrder K]

theorem quicksort_sorted_perm (key : α → K) (psel : PivotSelector α K)
    (hpsel : ∀ (l' : List α) (lo' hi' : Nat), lo' < hi' →
      lo' ≤ psel l' lo' hi' key ∧ psel l' lo' hi' key < hi')
    (l : List α) (cutoff : Nat) :
    (quicksort key psel l cutoff).Perm l ∧
    (quicksort key psel l cutoff).Pairwise (fun u v => key u ≤ key v) := by
  obtain ⟨hlen, hperm, _, hsort⟩ :=
    quicksort_subarray_spec key psel cutoff hpsel l.length l 0 l.length
      (by omega) (Nat.le_refl _)
  refine ⟨hperm, ?_⟩
  have hwhole : pySlice (quicksort key psel l cutoff) 0 l.length =
      quicksort key psel l cutoff := by
    unfold pySlice
    rw [List.drop_zero]
    apply List.take_of_length_le
    unfold quicksort
    omega
  unfold quicksort at hwhole ⊢
  rw [← hwhole]
  exact hsort

theorem median_of_three_in_range (l : List α) (lo hi : Nat) (key : α → K)
    (h : lo < hi) :
    lo ≤ median_of_three l lo hi key ∧ median_of_three l lo hi key < hi := by
  unfold median_of_three
  simp only
  split_ifs <;> omega

theorem take_first_pivot_in_range (l : List α) (lo hi : Nat) (key : α → K)
    (h : lo < hi) :
    lo ≤ take_first_pivot l lo hi key ∧ take_first_pivot l lo hi key < hi := by
  unfold take_first_pivot
  omega

theorem insertion_sort_inner_perm (gt : α → α → Bool) :
    ∀ (j : Nat) (l : List α), j + 1 < l.length →
      (insertion_sort_inner gt l j).Perm l
  | 0, l, h => by
    rw [insertion_sort_inner]
    by_cases hc : gt (l.getD 0 default) (l.getD 1 default)
    · rw [if_pos hc]
      exact ListFacts.listSwap_perm l 0 1 (by omega) h
    · rw [if_neg hc]
  | j+1, l, h => by
    rw [insertion_sort_inner]
    by_cases hc : gt (l.getD (j+1) default) (l.getD (j+2) default)
    · rw [if_pos hc]
      have h1 : j + 1 < (listSwap l (j+1) (j+2)).length := by
        simp
        omega
      exact (insertion_sort_inner_perm gt j (listSwap l (j+1) (j+2)) h1).trans
        (ListFacts.listSwap_perm l (j+1) (j+2) (by omega) (by omega))
    · rw [if_neg hc]

theorem insertion_sort_perm (gt : α → α → Bool) (l : List α) :
    (insertion_sort gt l).Perm l := by
  suffices h : ∀ m, m ≤ l.length →
      ((List.range m).foldl (insertion_sort_step gt) l).Perm l by
    exact h l.length (Nat.le_refl _)
  intro m
  induction m with
  | zero =>
    intro _
    exact List.Perm.refl l
  | succ m ih =>
    intro hm
    have hacc := ih (by omega)
    rw [List.range_succ, List.foldl_append, List.foldl_cons, List.foldl_nil]
    rcases m with _ | m'
    · exact hacc
    · show (insertion_sort_inner gt _ m').Perm l
      refine (insertion_sort_inner_perm gt m' _ ?_).trans hacc
      rw [hacc.length_eq]
      omega

end QuicksortProof

/-- C8: a single `partition` call on a subrange `[lo, hi)` with an in-range
pivot selector returns a pivot position `p` inside `[lo, hi)` such that every
element at a position in `[lo, p)` has key at most the key of the element at
`p`, and every element at a position in `[p, hi)` has key at least the key of
the element at `p`. -/
theorem partition_correct {α K : Type} [Inhabited α] [DecidableEq α] [LinearOrder K]
    (key : α → K) (psel : PivotSelector α K) (l : List α) (lo hi : Nat)
    (hlohi : lo < hi) (hhil : hi ≤ l.length)
    (hp1 : lo ≤ psel l lo hi key) (hp2 : psel l lo hi key < hi) :
    lo ≤ (partition key psel l lo hi).2 ∧ (partition key psel l lo hi).2 < hi ∧
    (∀ m, lo ≤ m → m < (partition key psel l lo hi).2 →
      key ((partition key psel l lo hi).1.getD m default) ≤
        key ((partition key psel l lo hi).1.getD
          (partition key psel l lo hi).2 default)) ∧
    (∀ m, (partition key psel l lo hi).2 ≤ m → m < hi →
      key ((partition key psel l lo hi).1.getD
          (partition key psel l lo hi).2 default) ≤
        key ((partition key psel l lo hi).1.getD m default)) := by
  obtain ⟨_, _, _, h4, h5, h6, h7⟩ :=
    PartitionProof.partition_spec key psel l lo hi hlohi hhil hp1 hp2
  exact ⟨h4, h5, h6, h7⟩

/-- Witness for C8: partitioning [3, 1, 2] on `[0, 3)` with the identity key
and the take-first pivot selector. -/
theorem partition_correct_witness :
    0 ≤ (partition (fun x : Nat => x) take_first_pivot [3, 1, 2] 0 3).2 ∧
    (partition (fun x : Nat => x) take_first_pivot [3, 1, 2] 0 3).2 < 3 ∧
    (∀ m, 0 ≤ m → m < (partition (fun x : Nat => x) take_first_pivot [3, 1, 2] 0 3).2 →
      (fun x : Nat => x) ((partition (fun x : Nat => x) take_first_pivot
          [3, 1, 2] 0 3).1.getD m default) ≤
        (fun x : Nat => x) ((partition (fun x : Nat => x) take_first_pivot
          [3, 1, 2] 0 3).1.getD
          (partition (fun x : Nat => x) take_first_pivot [3, 1, 2] 0 3).2 default)) ∧
    (∀ m, (partition (fun x : Nat => x) take_first_pivot [3, 1, 2] 0 3).2 ≤ m → m < 3 →
      (fun x : Nat => x) ((partition (fun x : Nat => x) take_first_pivot
          [3, 1, 2] 0 3).1.getD
          (partition (fun x : Nat => x) take_first_pivot [3, 1, 2] 0 3).2 default) ≤
        (fun x : Nat => x) ((partition (fun x : Nat => x) take_first_pivot
          [3, 1, 2] 0 3).1.getD m default)) :=
  partition_correct (fun x : Nat => x) take_first_pivot [3, 1, 2] 0 3
    (by omega) (by decide) (by decide) (by decide)

/-- C10: every sorting operation of sort.py — quicksort with any cutoff and
any in-range pivot strategy, insertion sort with any comparison guard, the
delegated built-in sort over a subrange, and a single partition call —
leaves the array's contents a permutation of what they were. -/
theorem sorting_preserves_multiset {α K : Type} [Inhabited α] [DecidableEq α]
    [LinearOrder K] :
    (∀ (key : α → K) (psel : PivotSelector α K) (cutoff : Nat) (l : List α),
      (∀ (l' : List α) (lo' hi' : Nat), lo' < hi' →
        lo' ≤ psel l' lo' hi' key ∧ psel l' lo' hi' key < hi') →
      (quicksort key psel l cutoff).Perm l) ∧
    (∀ (gt : α → α → Bool) (l : List α), (insertion_sort gt l).Perm l) ∧
    (∀ (key : α → K) (l : List α) (lo hi : Nat),
      (builtin_timsort key l lo hi).Perm l) ∧
    (∀ (key : α → K) (psel : PivotSelector α K) (l : List α) (lo hi : Nat),
      lo < hi → hi ≤ l.length → lo ≤ psel l lo hi key → psel l lo hi key < hi →
      (partition key psel l lo hi).1.Perm l) := by
  refine ⟨?_, ?_, ?_, ?_⟩
  · intro key psel cutoff l hpsel
    exact (QuicksortProof.quicksort_sorted_perm key psel hpsel l cutoff).1
  · intro gt l
    exact QuicksortProof.insertion_sort_perm gt l
  · intro key l lo hi
    exact TimsortProof.builtin_timsort_perm key l lo hi
  · intro key psel l lo hi h1 h2 h3 h4
    exact (PartitionProof.partition_spec key psel l lo hi h1 h2 h3 h4).2.1

/-- Witness for C10 at concrete inputs over `Nat` with the identity key. -/
theorem sorting_preserves_multiset_witness :
    (quicksort (fun x : Nat => x) take_first_pivot [2, 1] 0).Perm [2, 1] ∧
    (insertion_sort (fun u v : Nat => decide (v < u)) [2, 1]).Perm [2, 1] ∧
    (builtin_timsort (fun x : Nat => x) [2, 1] 0 2).Perm [2, 1] ∧
    (partition (fun x : Nat => x) take_first_pivot [2, 1] 0 2).1.Perm [2, 1] := by
  obtain ⟨h1, h2, h3, h4⟩ :=
    @sorting_preserves_multiset Nat Nat _ _ _
  exact ⟨h1 (fun x => x) take_first_pivot 0 [2, 1]
      (fun l' lo' hi' h => QuicksortProof.take_first_pivot_in_range l' lo' hi' _ h),
    h2 (fun u v => decide (v < u)) [2, 1],
    h3 (fun x => x) [2, 1] 0 2,
    h4 (fun x => x) take_first_pivot [2, 1] 0 2 (by omega) (by decide)
      (by decide) (by decide)⟩

/-- Counterexample to C9: with fully tied keys (constant key function) and
the take-first pivot, sorting [2, 1, 0] with `cutoff = 3` (always delegate to
the stable built-in sort) leaves it as [2, 1, 0], while `cutoff = 0` (always
partition) produces [0, 2, 1]. -/
theorem quicksort_cutoff_counterexample :
    quicksort (fun _ : Nat => (0 : Nat)) take_first_pivot [2, 1, 0] 3 = [2, 1, 0] ∧
    quicksort (fun _ : Nat => (0 : Nat)) take_first_pivot [2, 1, 0] 0 = [0, 2, 1] ∧
    quicksort (fun _ : Nat => (0 : Nat)) take_first_pivot [2, 1, 0] 3 ≠
      quicksort (fun _ : Nat => (0 : Nat)) take_first_pivot [2, 1, 0] 0 := by
  have h1 : quicksort (fun _ : Nat => (0 : Nat)) take_first_pivot [2, 1, 0] 3 =
      [2, 1, 0] := by
    simp +decide [quicksort, quicksort_subarray, builtin_timsort, pySlice,
      List.mergeSort]
  have h2 : quicksort (fun _ : Nat => (0 : Nat)) take_first_pivot [2, 1, 0] 0 =
      [0, 2, 1] := by
    simp +decide [quicksort, quicksort_subarray, partition, partition_loop,
      advance_lo, advance_hi, take_first_pivot, listSwap, builtin_timsort]
  refine ⟨h1, h2, ?_⟩
  rw [h1, h2]
  decide

/-- C9 amended: when no two elements of the array share a key (the mapped key
sequence has no duplicates), quicksort with `cutoff = array length` and
quicksort with `cutoff = 0` produce identical arrays; with tied keys the two
can differ (`quicksort_cutoff_counterexample`). -/
theorem quicksort_cutoff_equivalent_of_distinct_keys {α K : Type} [Inhabited α]
    [DecidableEq α] [LinearOrder K] (key : α → K) (psel : PivotSelector α K)
    (hpsel : ∀ (l' : List α) (lo' hi' : Nat), lo' < hi' →
      lo' ≤ psel l' lo' hi' key ∧ psel l' lo' hi' key < hi')
    (l : List α) (hnodup : (l.map key).Nodup) :
    quicksort key psel l l.length = quicksort key psel l 0 := by
  obtain ⟨hperm1, hsort1⟩ :=
    QuicksortProof.quicksort_sorted_perm key psel hpsel l l.length
  obtain ⟨hperm0, hsort0⟩ := QuicksortProof.quicksort_sorted_perm key psel hpsel l 0
  have hstrict : ∀ (r : List α), r.Perm l → r.Pairwise (fun u v => key u ≤ key v) →
      r.Pairwise (fun u v => key u < key v) := by
    intro r hp hs
    have hnod : (r.map key).Nodup := ((hp.map key).nodup_iff).mpr hnodup
    have hnod' : r.Pairwise (fun u v => key u ≠ key v) := List.pairwise_map.mp hnod
    exact (hs.and hnod').imp (fun h => lt_of_le_of_ne h.1 h.2)
  have hs1 := hstrict _ hperm1 hsort1
  have hs0 := hstrict _ hperm0 hsort0
  haveI : IsAntisymm α (fun u v => key u < key v) :=
    ⟨fun a b h1 h2 => absurd (lt_trans h1 h2) (lt_irrefl _)⟩
  exact List.eq_of_perm_of_sorted (hperm1.trans hperm0.symm) hs1 hs0

/-- Witness for the amended C9 on [1, 0] with the identity key. -/
theorem quicksort_cutoff_equivalent_witness :
    quicksort (fun x : Nat => x) take_first_pivot [1, 0] 2 =
      quicksort (fun x : Nat => x) take_first_pivot [1, 0] 0 :=
  quicksort_cutoff_equivalent_of_distinct_keys (fun x : Nat => x) take_first_pivot
    (fun l' lo' hi' h => QuicksortProof.take_first_pivot_in_range l' lo' hi' _ h)
    [1, 0] (by decide)

namespace SuffixSortProof

theorem pairwise_suffix_getD {text : List Byte} {l : List Nat}
    (h : l.Pairwise (fun u v => text.drop u ≤ text.drop v)) :
    ∀ i j, i < j → j < l.length →
      text.drop (l.getD i 0) ≤ text.drop (l.getD j 0) := by
  intro i j hij hj
  have hi : i < l.length := lt_trans hij hj
  have hR := List.pairwise_iff_getElem.mp h i j hi hj hij
  rw [show l.getD i 0 = l[i] from ListFacts.getD_eq_getElem l i hi,
      show l.getD j 0 = l[j] from ListFacts.getD_eq_getElem l j hj]
  exact hR

theorem exact_gt_guard (text : List Byte) :
    exact_gt text =
      fun u v => decide ((fun p => text.drop p) v < (fun p => text.drop p) u) := by
  funext u v
  exact ExactCompare.exact_gt_eq_suffix_lt text u v

end SuffixSortProof

/-- C2: the external sorter of the build pipeline — quicksort by the 100-byte
bounded prefix key with the median-of-three pivot, followed by insertion sort
with the exact suffix comparator — leaves the index array a permutation of
its input satisfying the suffix-array invariant (for `i < j` the suffix at
entry `i` is lexicographically at most the suffix at entry `j`); in
particular the insertion-sort pass with the exact comparator alone sorts any
array of in-range positions into non-decreasing suffix order. -/
theorem sort_suffix_array_correct (text : List Byte) (arr : List Nat) (c : Nat)
    (hbound : ∀ x ∈ arr, x ≤ text.length) :
    (sort_suffix_array text arr c).Perm arr ∧
    (∀ i j, i < j → j < (sort_suffix_array text arr c).length →
      text.drop ((sort_suffix_array text arr c).getD i 0) ≤
        text.drop ((sort_suffix_array text arr c).getD j 0)) ∧
    (∀ arr2 : List Nat, (∀ x ∈ arr2, x ≤ text.length) →
      (insertion_sort (exact_gt text) arr2).Perm arr2 ∧
      ∀ i j, i < j → j < (insertion_sort (exact_gt text) arr2).length →
        text.drop ((insertion_sort (exact_gt text) arr2).getD i 0) ≤
          text.drop ((insertion_sort (exact_gt text) arr2).getD j 0)) := by
  have hins : ∀ arr2 : List Nat,
      (insertion_sort (exact_gt text) arr2).Perm arr2 ∧
      (insertion_sort (exact_gt text) arr2).Pairwise
        (fun u v => text.drop u ≤ text.drop v) := by
    intro arr2
    rw [SuffixSortProof.exact_gt_guard text]
    exact InsertionSortProof.insertion_sort_correct (fun p => text.drop p) arr2
  have hq : (quicksort ( take_prefix text) median_of_three arr 0).Perm arr :=
    (QuicksortProof.quicksort_sorted_perm ( take_prefix text) median_of_three
      (fun l' lo' hi' h => QuicksortProof.median_of_three_in_range l' lo' hi' _ h)
      arr 0).1
  refine ⟨?_, ?_, ?_⟩
  · exact ((hins _).1).trans hq
  · exact SuffixSortProof.pairwise_suffix_getD (hins _).2
  · intro arr2 _
    exact ⟨(hins arr2).1, SuffixSortProof.pairwise_suffix_getD (hins arr2).2⟩

/-- Witness for C2 on the text "b a" and the collected index [0, 2]. -/
theorem sort_suffix_array_correct_witness :
    (sort_suffix_array [98, 32, 97] [0, 2] 10000).Perm [0, 2] ∧
    (∀ i j, i < j → j < (sort_suffix_array [98, 32, 97] [0, 2] 10000).length →
      List.drop ((sort_suffix_array [98, 32, 97] [0, 2] 10000).getD i 0) [98, 32, 97] ≤
        List.drop ((sort_suffix_array [98, 32, 97] [0, 2] 10000).getD j 0) [98, 32, 97]) ∧
    (∀ arr2 : List Nat, (∀ x ∈ arr2, x ≤ List.length [98, 32, 97]) →
      (insertion_sort (exact_gt [98, 32, 97]) arr2).Perm arr2 ∧
      ∀ i j, i < j → j < (insertion_sort (exact_gt [98, 32, 97]) arr2).length →
        List.drop ((insertion_sort (exact_gt [98, 32, 97]) arr2).getD i 0) [98, 32, 97] ≤
          List.drop ((insertion_sort (exact_gt [98, 32, 97]) arr2).getD j 0)
            [98, 32, 97]) :=
  sort_suffix_array_correct [98, 32, 97] [0, 2] 10000 (by decide)

namespace DelegationProof

variable {α : Type} [Inhabited α] [DecidableEq α] {K : Type} [LinearOrder K]

theorem quicksort_delegations_bound (key : α → K) (psel : PivotSelector α K)
    (cutoff : Nat) :
    ∀ (fuel : Nat) (l : List α) (lo hi : Nat) (pr : Nat × Nat),
      pr ∈ quicksort_delegations key psel cutoff fuel l lo hi →
      0 < pr.2 - pr.1 ∧ pr.2 - pr.1 ≤ cutoff := by
  intro fuel
  induction fuel with
  | zero =>
    intro l lo hi pr hpr
    simp [quicksort_delegations] at hpr
  | succ fuel ih =>
    intro l lo hi pr hpr
    rw [quicksort_delegations] at hpr
    by_cases hsz : hi - lo = 0
    · rw [if_pos hsz] at hpr
      simp at hpr
    · rw [if_neg hsz] at hpr
      by_cases hcut : cutoff ≥ hi - lo
      · rw [if_pos hcut] at hpr
        rw [List.mem_singleton] at hpr
        subst hpr
        exact ⟨by omega, hcut⟩
      · rw [if_neg hcut] at hpr
        rcases List.mem_append.mp hpr with h | h
        · exact ih _ _ _ _ h
        · exact ih _ _ _ _ h

end DelegationProof

/-- C3 (a code bug): quicksort itself delegates to the built-in sort exactly
on non-empty recursive subranges of size at most its cutoff argument, but
`sort_suffix_array` never forwards its `cutoff` parameter to `quicksort`,
which therefore always runs with the Python default cutoff 0: the build
result is independent of the caller-supplied cutoff, and on the two-entry
index of the text "b a" a forwarded default cutoff of 10,000 would delegate
on the whole range [0, 2) while the actual build delegates nowhere. -/
theorem sort_suffix_array_ignores_cutoff :
    (∀ (text : List Byte) (arr : List Nat) (c c' : Nat),
      sort_suffix_array text arr c = sort_suffix_array text arr c') ∧
    (∀ (key : Nat → List Byte) (psel : PivotSelector Nat (List Byte))
       (c fuel : Nat) (l : List Nat) (lo hi : Nat) (pr : Nat × Nat),
      pr ∈ quicksort_delegations key psel c fuel l lo hi →
      0 < pr.2 - pr.1 ∧ pr.2 - pr.1 ≤ c) ∧
    quicksort_delegations ( take_prefix [98, 32, 97]) median_of_three 10000 2
      [0, 2] 0 2 = [(0, 2)] ∧
    quicksort_delegations ( take_prefix [98, 32, 97]) median_of_three 0 2
      [0, 2] 0 2 = [] := by
  refine ⟨fun text arr c c' => rfl, ?_, by decide, ?_⟩
  · intro key psel c fuel l lo hi pr hpr
    exact DelegationProof.quicksort_delegations_bound key psel c fuel l lo hi pr hpr
  · simp +decide [quicksort_delegations, quicksort_subarray, partition,
      partition_loop, advance_lo, advance_hi, median_of_three, listSwap,
      take_prefix, pySlice, COMPARE_BUFFER_SIZE, builtin_timsort]

namespace BinarySearchProof

/-- The truncated comparison key `text[index[i] : index[i]+n]` that
`binary_search_first` compares against an `n`-byte search key. -/
def truncKey (text : List Byte) (index : List Nat) (n i : Nat) : List Byte :=
  pySlice text (index.getD i 0) (index.getD i 0 + n)

theorem pySlice_add_length {β : Type} (l : List β) (p n : Nat) :
    pySlice l p (p + n) = (l.drop p).take n := by
  unfold pySlice
  congr 1
  omega

/-- Suffix-sortedness of the index implies sortedness of the truncated
comparison keys. -/
theorem truncKey_mono (text : List Byte) (index : List Nat) (n : Nat)
    (hsorted : ∀ j, j < index.length → ∀ i, i < j →
      text.drop (index.getD i 0) ≤ text.drop (index.getD j 0)) :
    ∀ i j, i ≤ j → j < index.length →
      truncKey text index n i ≤ truncKey text index n j := by
  intro i j hij hj
  rcases lt_or_eq_of_le hij with h | rfl
  · unfold truncKey
    rw [pySlice_add_length, pySlice_add_length]
    exact LexFacts.take_le_take (hsorted j hj i h) n
  · exact le_rfl

/-- One unfolding of the binary-search loop when the body runs and the middle
access is in range. -/
theorem binary_search_loop_eq (sk : List Byte) (index : List Nat)
    (text : List Byte) (low high : Nat) (h1 : high - low > 1)
    (h2 : (low + high) / 2 < index.length) :
    binary_search_loop sk index text low high =
      (if sk > truncKey text index sk.length ((low + high) / 2) then
        binary_search_loop sk index text ((low + high) / 2 + 1) high
      else
        binary_search_loop sk index text low ((low + high) / 2)) := by
  rw [binary_search_loop, if_pos h1, List.getElem?_eq_getElem h2]
  rw [show index[(low + high) / 2] = index.getD ((low + high) / 2) 0 from
    (ListFacts.getD_eq_getElem index _ h2).symm]
  rfl

/-- Invariant preservation for the narrowing loop: the loop never errors on a
nonempty index, ends with `high - low ≤ 1`, everything strictly left of `low`
has truncated key strictly below the search key, and any match strictly right
of `high` forces a match at or before `high`. -/
theorem binary_search_loop_spec (sk : List Byte) (index : List Nat)
    (text : List Byte)
    (hmono : ∀ i j, i ≤ j → j < index.length →
      truncKey text index sk.length i ≤ truncKey text index sk.length j) :
    ∀ (n low high : Nat), high - low ≤ n → low ≤ high → high < index.length →
      (∀ j, j < low → truncKey text index sk.length j < sk) →
      (∀ j, high < j → j < index.length → sk = truncKey text index sk.length j →
        ∃ j', j' ≤ high ∧ sk = truncKey text index sk.length j') →
      ∃ lo hi, binary_search_loop sk index text low high = Except.ok (lo, hi) ∧
        lo ≤ hi ∧ hi < index.length ∧ hi - lo ≤ 1 ∧
        (∀ j, j < lo → truncKey text index sk.length j < sk) ∧
        (∀ j, hi < j → j < index.length → sk = truncKey text index sk.length j →
          ∃ j', j' ≤ hi ∧ sk = truncKey text index sk.length j') := by
  intro n
  induction n with
  | zero =>
    intro low high hn hlh hhi hA hB
    refine ⟨low, high, ?_, hlh, hhi, by omega, hA, hB⟩
    rw [binary_search_loop, if_neg (by omega : ¬ high - low > 1)]
  | succ n ih =>
    intro low high hn hlh hhi hA hB
    by_cases hgt : high - low > 1
    · have hmidlt : (low + high) / 2 < index.length := by omega
      by_cases hcmp : sk > truncKey text index sk.length ((low + high) / 2)
      · rw [binary_search_loop_eq sk index text low high hgt hmidlt, if_pos hcmp]
        refine ih ((low + high) / 2 + 1) high (by omega) (by omega) hhi ?_ hB
        intro j hj
        exact lt_of_le_of_lt (hmono j ((low + high) / 2) (by omega) hmidlt) hcmp
      · rw [binary_search_loop_eq sk index text low high hgt hmidlt, if_neg hcmp]
        refine ih low ((low + high) / 2) (by omega) (by omega) hmidlt hA ?_
        intro j hj1 hj2 hj3
        refine ⟨(low + high) / 2, le_refl _, ?_⟩
        have h1 : truncKey text index sk.length ((low + high) / 2) ≤
            truncKey text index sk.length j := hmono _ _ (by omega) hj2
        rw [← hj3] at h1
        exact le_antisymm (not_lt.mp hcmp) h1
    · refine ⟨low, high, ?_, hlh, hhi, by omega, hA, hB⟩
      rw [binary_search_loop, if_neg hgt]

end BinarySearchProof

/-- C4: on a nonempty index sorted by exact suffix order,
`binary_search_first` never raises, and it returns the least array position
whose truncated suffix `text[index[i] : index[i]+len(key)]` equals the search
key byte-for-byte when such a position exists, and `-1` when none does. -/
theorem binary_search_first_correct (search_key : List Byte) (index : List Nat)
    (text : List Byte) (hne : index ≠ [])
    (hsorted : ∀ j, j < index.length → ∀ i, i < j →
      text.drop (index.getD i 0) ≤ text.drop (index.getD j 0)) :
    ∃ r : Int, binary_search_first search_key index text = Except.ok r ∧
      ((∀ i, i < index.length →
          search_key ≠ BinarySearchProof.truncKey text index search_key.length i) →
        r = -1) ∧
      (∀ i0, i0 < index.length →
        search_key = BinarySearchProof.truncKey text index search_key.length i0 →
        ∃ i : Nat, r = (i : Int) ∧ i < index.length ∧
          search_key = BinarySearchProof.truncKey text index search_key.length i ∧
          ∀ j, j < i →
            search_key ≠ BinarySearchProof.truncKey text index search_key.length j) := by
  have hlen : 0 < index.length := List.length_pos.mpr hne
  have hmono := BinarySearchProof.truncKey_mono text index search_key.length hsorted
  obtain ⟨lo, hi, hloop, hlohi, hhilt, hdiff, hA, hB⟩ :=
    BinarySearchProof.binary_search_loop_spec search_key index text hmono
      index.length 0 (index.length - 1) (by omega) (by omega) (by omega)
      (fun j hj => absurd hj (Nat.not_lt_zero j))
      (fun j hj1 hj2 _ => absurd hj1 (by omega))
  have hlolt : lo < index.length := lt_of_le_of_lt hlohi hhilt
  have hgdlo : index.getD lo 0 = index[lo] :=
    ListFacts.getD_eq_getElem index lo hlolt
  have hgdhi : index.getD hi 0 = index[hi] :=
    ListFacts.getD_eq_getElem index hi hhilt
  have hred : binary_search_first search_key index text =
      (if search_key = BinarySearchProof.truncKey text index search_key.length lo
       then Except.ok (lo : Int)
       else if search_key = BinarySearchProof.truncKey text index search_key.length hi
       then Except.ok (hi : Int)
       else Except.ok (-1)) := by
    unfold binary_search_first
    rw [hloop]
    show (match index[lo]? with
      | none => Except.error "IndexError"
      | some plow =>
        if search_key = pySlice text plow (plow + search_key.length) then
          Except.ok (lo : Int)
        else
          match index[hi]? with
          | none => Except.error "IndexError"
          | some phigh =>
            if search_key = pySlice text phigh (phigh + search_key.length) then
              Except.ok (hi : Int)
            else Except.ok (-1)) = _
    rw [List.getElem?_eq_getElem hlolt, List.getElem?_eq_getElem hhilt,
      ← hgdlo, ← hgdhi]
    rfl
  by_cases hmlo : search_key = BinarySearchProof.truncKey text index search_key.length lo
  · refine ⟨(lo : Int), ?_, ?_, ?_⟩
    · rw [hred, if_pos hmlo]
    · intro hnone
      exact absurd hmlo (hnone lo hlolt)
    · intro i0 hi0 hm0
      refine ⟨lo, rfl, hlolt, hmlo, ?_⟩
      intro j hj
      exact (ne_of_lt (hA j hj)).symm
  · by_cases hmhi : search_key = BinarySearchProof.truncKey text index search_key.length hi
    · refine ⟨(hi : Int), ?_, ?_, ?_⟩
      · rw [hred, if_neg hmlo, if_pos hmhi]
      · intro hnone
        exact absurd hmhi (hnone hi hhilt)
      · intro i0 hi0 hm0
        refine ⟨hi, rfl, hhilt, hmhi, ?_⟩
        intro j hj
        by_cases hjlo : j < lo
        · exact (ne_of_lt (hA j hjlo)).symm
        · have hjeq : j = lo := by omega
          rw [hjeq]
          exact hmlo
    · refine ⟨-1, ?_, fun _ => rfl, ?_⟩
      · rw [hred, if_neg hmlo, if_neg hmhi]
      · intro i0 hi0 hm0
        exfalso
        have hi0lo : ¬ i0 < lo := fun h => (ne_of_lt (hA i0 h)).symm hm0
        by_cases hcase : i0 ≤ hi
        · have : i0 = lo ∨ i0 = hi := by omega
          rcases this with rfl | rfl
          · exact hmlo hm0
          · exact hmhi hm0
        · obtain ⟨j', hj'le, hj'm⟩ := hB i0 (by omega) hi0 hm0
          have hj'lo : ¬ j' < lo := fun h => (ne_of_lt (hA j' h)).symm hj'm
          have : j' = lo ∨ j' = hi := by omega
          rcases this with rfl | rfl
          · exact hmlo hj'm
          · exact hmhi hj'm

/-- Witness for C4 on the text "ab", the sorted index [0, 1] and the search
key "b". -/
theorem binary_search_first_correct_witness :
    ([0, 1] : List Nat) ≠ [] ∧
    (∀ j, j < List.length ([0, 1] : List Nat) → ∀ i, i < j →
      List.drop (([0, 1] : List Nat).getD i 0) [97, 98] ≤
        List.drop (([0, 1] : List Nat).getD j 0) [97, 98]) ∧
    ∃ r : Int, binary_search_first [98] [0, 1] [97, 98] = Except.ok r ∧
      ((∀ i, i < List.length ([0, 1] : List Nat) →
          ([98] : List Byte) ≠
            BinarySearchProof.truncKey [97, 98] [0, 1] (List.length ([98] : List Byte)) i) →
        r = -1) ∧
      (∀ i0, i0 < List.length ([0, 1] : List Nat) →
        ([98] : List Byte) =
          BinarySearchProof.truncKey [97, 98] [0, 1] (List.length ([98] : List Byte)) i0 →
        ∃ i : Nat, r = (i : Int) ∧ i < List.length ([0, 1] : List Nat) ∧
          ([98] : List Byte) =
            BinarySearchProof.truncKey [97, 98] [0, 1] (List.length ([98] : List Byte)) i ∧
          ∀ j, j < i →
            ([98] : List Byte) ≠
              BinarySearchProof.truncKey [97, 98] [0, 1] (List.length ([98] : List Byte)) j) :=
  ⟨by decide, by decide,
    binary_search_first_correct [98] [0, 1] [97, 98] (by decide) (by decide)⟩

/-- Counterexample to C5: on a 0-byte text the very first build phase fails —
`mmap(fileno, 0)` on an empty file raises ValueError — so the build does not
succeed with an empty index; and `binary_search_first` on an empty index
unconditionally evaluates `index[low]` with `low = 0`, raising IndexError
instead of returning the not-found value. -/
theorem empty_input_crashes :
    mmap_open ([] : List Byte) = Except.error "cannot mmap an empty file" ∧
    build_suffix_array [] 10000 = Except.error "cannot mmap an empty file" ∧
    binary_search_first [97] [] [] = Except.error "IndexError" := by
  have hloop : binary_search_loop [97] [] [] 0 0 = Except.ok (0, 0) := by
    rw [binary_search_loop, if_neg (by omega : ¬ (0 : Nat) - 0 > 1)]
  refine ⟨rfl, rfl, ?_⟩
  unfold binary_search_first
  rw [show List.length ([] : List Nat) - 1 = 0 from rfl, hloop]
  rfl

/-- C5 amended: building from a 0-byte text fails with the mmap error for
every cutoff (rather than producing an empty index), binary search over a
size-0 index raises IndexError for every key and text, and binary search
over a size-1 index completes without error and correctly reports position 0
or not-found. -/
theorem degenerate_sizes_behavior :
    (∀ cutoff : Nat,
      build_suffix_array [] cutoff = Except.error "cannot mmap an empty file") ∧
    (∀ (skey text : List Byte),
      binary_search_first skey [] text = Except.error "IndexError") ∧
    (∀ (skey text : List Byte) (p : Nat),
      binary_search_first skey [p] text =
        Except.ok (if skey = pySlice text p (p + skey.length) then 0 else -1)) := by
  refine ⟨fun cutoff => rfl, ?_, ?_⟩
  · intro skey text
    have hloop : binary_search_loop skey [] text 0 0 = Except.ok (0, 0) := by
      rw [binary_search_loop, if_neg (by omega : ¬ (0 : Nat) - 0 > 1)]
    unfold binary_search_first
    rw [show List.length ([] : List Nat) - 1 = 0 from rfl, hloop]
    rfl
  · intro skey text p
    have hloop : binary_search_loop skey [p] text 0 0 = Except.ok (0, 0) := by
      rw [binary_search_loop, if_neg (by omega : ¬ (0 : Nat) - 0 > 1)]
    have hfirst : binary_search_first skey [p] text =
        (if skey = pySlice text p (p + skey.length) then Except.ok 0
         else if skey = pySlice text p (p + skey.length) then Except.ok 0
         else Except.ok (-1)) := by
      unfold binary_search_first
      rw [show List.length ([p] : List Nat) - 1 = 0 from rfl, hloop]
      rfl
    rw [hfirst]
    split_ifs with h
    · rfl
    · rfl
